import Mathlib

/-!
# Verification of the `mecha` CHEMKIN mechanism toolkit

Shallow embedding of the core data model and operations of the
`automech-drafts` repository (package `mecha`, with the snapshot
`tmp_mecha` where the claims cite it), together with proofs and
refutations of the specification claims.

Numbers are modelled as rationals: the Python code performs no floating
point arithmetic on the rate parameters, it only restructures them, so
exact rationals are a faithful model for the equality claims at issue.
Python runtime failures (`assert`, `TypeError`, `KeyError`, ...) are
modelled with an explicit error type and `Except`.
-/

namespace Mecha

/-- Python runtime failure kinds relevant to the embedded code paths. -/
inductive PyErr where
  | assertionError (msg : String)
  | typeError (msg : String)
  | keyError (key : String)
  | indexError
  | attributeError (msg : String)
  | valueError (msg : String)
  | parseException
deriving DecidableEq

/-- A Python value as stored in the dynamically-typed fields of
`PlogRate` (`mecha/data/rate.py`).  The source annotates
`ks : Tuple[ArrheniusFunction, ...]` and `Ps : Tuple[float, ...]`, but
`from_chemkin` actually assigns a list of number tuples to `ks` and a
one-element tuple containing a list to `Ps`; this type can represent
both shapes, so the embedding can store exactly what the code stores.
Python lists and tuples are both modelled by `seq`. -/
inductive PyVal where
  | num (q : ℚ)
  | seq (elems : List PyVal)
  | arrh (A b E B C : ℚ)

/-- `RateType` enum from `mecha/data/rate.py` (lines 16-23). -/
inductive RateType where
  | constant
  | falloff
  | activated
  | plog
  | cheb
deriving DecidableEq

/-- `BlendType` enum from `mecha/data/rate.py` (lines 26-30). -/
inductive BlendType where
  | lind
  | troe
deriving DecidableEq

/-- `ArrheniusFunction` dataclass from `mecha/data/rate.py` (lines 33-48):
parameters `A`, `b`, `E` with Landau-Teller extensions `B`, `C`,
defaults `(1.0, 0.0, 0.0, 0.0, 0.0)`. -/
structure ArrheniusFunction where
  A : ℚ := 1
  b : ℚ := 0
  E : ℚ := 0
  B : ℚ := 0
  C : ℚ := 0
deriving DecidableEq

/-- `ArrheniusFunction(*params)`: positional construction from a Python
tuple of numbers, filling the remaining fields with their defaults.
More than five positional arguments is a Python `TypeError`. -/
def arrheniusFromParams (ps : List ℚ) : Except PyErr ArrheniusFunction :=
  match ps with
  | [] => .ok {}
  | [a] => .ok { A := a }
  | [a, b] => .ok { A := a, b := b }
  | [a, b, e] => .ok { A := a, b := b, E := e }
  | [a, b, e, bb] => .ok { A := a, b := b, E := e, B := bb }
  | [a, b, e, bb, c] => .ok { A := a, b := b, E := e, B := bb, C := c }
  | _ => .error (.typeError "ArrheniusFunction() takes at most 5 positional arguments")

/-- `BlendingFunction` dataclass from `mecha/data/rate.py` (lines 51-67):
optional coefficient tuple and a blend type (default Lindemann). -/
structure BlendingFunction where
  coeffs : Option (List ℚ) := none
  type_ : BlendType := .lind
deriving DecidableEq

/-- The closed union of rate objects the embedded code constructs:
`SimpleRate` (lines 84-115) and `PlogRate` (lines 118-136) of
`mecha/data/rate.py`.  `ChebRate` is not modelled: `from_chemkin`
"Ignores Chebyshev for now" per its own docstring.  The `k` field of
`SimpleRate` is `Option` because `from_chemkin` passes `None` when no
Arrhenius parameters are supplied, even though the dataclass default is
`ArrheniusFunction()`.  The `ks`/`Ps` fields of the plog variant hold
raw `PyVal`s because the code stores dynamically shaped values there. -/
inductive Rate where
  | simple (k : Option ArrheniusFunction) (k0 : Option ArrheniusFunction)
      (f : Option BlendingFunction) (isRev : Bool) (type_ : RateType)
  | plogR (ks : PyVal) (Ps : PyVal) (k : Option ArrheniusFunction) (isRev : Bool)

/-- `type_` of a rate object (the `type_` field; `PlogRate.type_` is
always `PLOG` after `__post_init__`). -/
def rateTypeOf : Rate → RateType
  | .simple _ _ _ _ t => t
  | .plogR _ _ _ _ => .plog

/-- `SimpleRate` construction including `__post_init__`
(`mecha/data/rate.py` lines 110-115): asserts the type is Constant,
Falloff or Activated, and for the non-Constant types replaces a missing
blending function by the default Lindemann one. -/
def mkSimpleRate (k k0 : Option ArrheniusFunction) (f : Option BlendingFunction)
    (isRev : Bool) (type_ : RateType) : Except PyErr Rate :=
  if type_ = .constant ∨ type_ = .falloff ∨ type_ = .activated then
    let f := if type_ ≠ .constant ∧ f = none then some {} else f
    .ok (.simple k k0 f isRev type_)
  else
    .error (.assertionError "SimpleRate type must be Constant, Falloff or Activated")

/-- `ks = [c[1:] for c in plog]` (`mecha/data/rate.py` line 171): a list
of the 3-number tails of the PLOG rows. -/
def plogKsVal (plog : List (List ℚ)) : PyVal :=
  .seq (plog.map (fun c => .seq ((c.drop 1).map .num)))

/-- `[c[0] for c in plog]`: the rows' first numbers; `c[0]` raises
`IndexError` on an empty row. -/
def plogHeads : List (List ℚ) → Except PyErr (List PyVal)
  | [] => .ok []
  | [] :: _ => .error .indexError
  | (p :: _) :: rest =>
    match plogHeads rest with
    | .ok ps => .ok (PyVal.num p :: ps)
    | .error e => .error e

/-- `None if arrh is None else ArrheniusFunction(*arrh)`
(`mecha/data/rate.py` lines 165-166). -/
def optArrhenius : Option (List ℚ) → Except PyErr (Option ArrheniusFunction)
  | none => .ok none
  | some ps =>
    match arrheniusFromParams ps with
    | .ok a => .ok (some a)
    | .error e => .error e

/-- Python whitespace characters, as used by `str.strip()`. -/
def isPyWs (c : Char) : Bool :=
  c = ' ' ∨ c = '\t' ∨ c = '\n' ∨ c = '\r' ∨ c = '\x0b' ∨ c = '\x0c'

/-- Python `s.strip()`: remove leading and trailing whitespace. -/
def pyStrip (s : String) : String :=
  ⟨((s.data.dropWhile isPyWs).reverse.dropWhile isPyWs).reverse⟩

/-- Python `s.replace(c, "")` for a single-character pattern: remove
every occurrence of the character. -/
def removeAllChar (c : Char) (s : String) : String :=
  ⟨s.data.filter (fun x => x ≠ c)⟩

/-- `from_chemkin` of `mecha/data/rate.py` (lines 139-187).
Steps, faithful to the source:
1. strip the arrow and assert it is one of `=`, `<=>`, `=>`;
2. build `k`/`k0` from `arrh`/`arrh0` when present;
3. if `plog` is present return a `PlogRate` immediately, with
   `ks = [c[1:] for c in plog]` and `Ps = ([c[0] for c in plog],)`
   (`troe` and `arrh0` are silently ignored on this path);
4. otherwise build a Troe blending function when `troe` is present;
5. classify the pressure dependence through the table
   `{"": CONSTANT, "M": ACTIVATED, "(M)": FALLOFF}` keyed by `plus_m`
   with spaces and `+` removed (a `KeyError` for any other key);
6. `assert f is None or type_ in (ACTIVATED, FALLOFF)`, message
   "Troe coefficients without +M";
7. construct the `SimpleRate`. -/
def rateFromChemkin (arrow : String) (plus_m : String)
    (arrh arrh0 : Option (List ℚ)) (troe : Option (List ℚ))
    (plog : Option (List (List ℚ))) : Except PyErr Rate :=
  let arrowS := pyStrip arrow
  if arrowS = "=" ∨ arrowS = "<=>" ∨ arrowS = "=>" then
    let isRev : Bool := arrowS = "=" ∨ arrowS = "<=>"
    match optArrhenius arrh with
    | .error e => .error e
    | .ok k =>
      match optArrhenius arrh0 with
      | .error e => .error e
      | .ok k0 =>
        match plog with
        | some rows =>
          (match plogHeads rows with
           | .error e => .error e
           | .ok heads => .ok (.plogR (plogKsVal rows) (.seq [.seq heads]) k isRev))
        | none =>
          let f : Option BlendingFunction :=
            match troe with
            | none => none
            | some ts => some { coeffs := some ts, type_ := .troe }
          let key := removeAllChar '+' (removeAllChar ' ' plus_m)
          match (if key = "" then .ok RateType.constant
            else if key = "M" then .ok RateType.activated
            else if key = "(M)" then .ok RateType.falloff
            else .error (PyErr.keyError key) : Except PyErr RateType) with
          | .error e => .error e
          | .ok type_ =>
            if f = none ∨ type_ = .activated ∨ type_ = .falloff then
              mkSimpleRate k k0 f isRev type_
            else
              .error (.assertionError "Troe coefficients without +M")
  else
    .error (.assertionError "Invalid CHEMKIN arrow")

/-! ## Helper lemmas for the rate constructor -/

theorem arrheniusFromParams_ok (ps : List ℚ) (h : ps.length ≤ 5) :
    ∃ a, arrheniusFromParams ps = .ok a := by
  match ps with
  | [] => exact ⟨_, rfl⟩
  | [a] => exact ⟨_, rfl⟩
  | [a, b] => exact ⟨_, rfl⟩
  | [a, b, e] => exact ⟨_, rfl⟩
  | [a, b, e, bb] => exact ⟨_, rfl⟩
  | [a, b, e, bb, c] => exact ⟨_, rfl⟩
  | a :: b :: c :: d :: e :: f :: rest => simp [List.length] at h

theorem optArrhenius_ok (o : Option (List ℚ)) (h : ∀ ps, o = some ps → ps.length ≤ 5) :
    ∃ k, optArrhenius o = .ok k := by
  match o with
  | none => exact ⟨none, rfl⟩
  | some ps =>
    obtain ⟨a, ha⟩ := arrheniusFromParams_ok ps (h ps rfl)
    exact ⟨some a, by simp [optArrhenius, ha]⟩

theorem plogHeads_ok (rows : List (List ℚ)) (h : ∀ c ∈ rows, c ≠ []) :
    plogHeads rows = .ok (rows.map (fun c => .num c.headI)) := by
  induction rows with
  | nil => rfl
  | cons c rest ih =>
    match c with
    | [] => exact absurd rfl (h [] (List.mem_cons_self _ _))
    | p :: ps =>
      have := ih (fun x hx => h x (List.mem_cons_of_mem _ hx))
      simp [plogHeads, this, List.headI]

/-! ## Claim C2: PLOG supplied together with Troe/LOW parameters -/

/-- C2, counterexample: `from_chemkin` called with PLOG rows AND Troe
AND low-pressure (LOW) Arrhenius parameters does not fail with
`ConflictingRateLaw` (or at all); it silently returns the PLOG rate,
discarding the Troe and LOW parameters.  (The claim says every such
call fails.) -/
theorem c2_counterexample :
    rateFromChemkin "=" "" (some [1, 0, 0]) (some [2, 0, 0]) (some [3, 4, 5])
        (some [[1, 2, 3, 4]]) =
      .ok (.plogR (.seq [.seq [.num 2, .num 3, .num 4]]) (.seq [.seq [.num 1]])
        (some { A := 1, b := 0, E := 0 }) true) := rfl

/-- C2 (amended): for every call of `rate.from_chemkin` in which PLOG
parameters are supplied (with a valid arrow, well-formed Arrhenius
parameter lists and non-empty PLOG rows), the call returns a PLOG rate
built from the PLOG rows and silently ignores the Troe and LOW
(`arrh0`) parameters; no `ConflictingRateLaw` error is raised. -/
theorem c2_amended (arrow plus_m : String) (arrh arrh0 troe : Option (List ℚ))
    (rows : List (List ℚ))
    (harrow : pyStrip arrow = "=" ∨ pyStrip arrow = "<=>" ∨ pyStrip arrow = "=>")
    (harrh : ∀ ps, arrh = some ps → ps.length ≤ 5)
    (harrh0 : ∀ ps, arrh0 = some ps → ps.length ≤ 5)
    (hrows : ∀ c ∈ rows, c ≠ []) :
    ∃ k, rateFromChemkin arrow plus_m arrh arrh0 troe (some rows) =
      .ok (.plogR (plogKsVal rows)
        (.seq [.seq (rows.map (fun c => .num c.headI))]) k
        (decide (pyStrip arrow = "=" ∨ pyStrip arrow = "<=>"))) := by
  obtain ⟨k, hk⟩ := optArrhenius_ok arrh harrh
  obtain ⟨k0, hk0⟩ := optArrhenius_ok arrh0 harrh0
  refine ⟨k, ?_⟩
  simp only [rateFromChemkin, if_pos harrow, hk, hk0, plogHeads_ok rows hrows]

/-- C2, witness for the amended theorem at a concrete input. -/
theorem c2_witness :
    ∃ k, rateFromChemkin "=" "" none none (some [7, 8, 9]) (some [[1, 2, 3, 4]]) =
      .ok (.plogR (plogKsVal [[1, 2, 3, 4]]) (.seq [.seq [.num 1]]) k true) := by
  have h := c2_amended "=" "" none none (some [7, 8, 9]) [[1, 2, 3, 4]]
    (by decide) (by simp) (by simp) (by decide)
  simpa using h

/-! ## Claim C3: Troe parameters without a collider token -/

/-- C3: for every call of `rate.from_chemkin` in which Troe parameters
are supplied, no collider token is supplied (`plus_m` normalizes to the
empty string) and no PLOG parameters are supplied (with a valid arrow
and well-formed Arrhenius parameter lists), the call fails — with the
`AssertionError` "Troe coefficients without +M", which realizes the
conflicting-rate-law failure the spec names `ConflictingRateLaw` —
instead of returning a rate. -/
theorem c3_troe_without_collider (arrow plus_m : String)
    (arrh arrh0 : Option (List ℚ)) (ts : List ℚ)
    (harrow : pyStrip arrow = "=" ∨ pyStrip arrow = "<=>" ∨ pyStrip arrow = "=>")
    (harrh : ∀ ps, arrh = some ps → ps.length ≤ 5)
    (harrh0 : ∀ ps, arrh0 = some ps → ps.length ≤ 5)
    (hcoll : removeAllChar '+' (removeAllChar ' ' plus_m) = "") :
    rateFromChemkin arrow plus_m arrh arrh0 (some ts) none =
      .error (.assertionError "Troe coefficients without +M") := by
  obtain ⟨k, hk⟩ := optArrhenius_ok arrh harrh
  obtain ⟨k0, hk0⟩ := optArrhenius_ok arrh0 harrh0
  simp [rateFromChemkin, if_pos harrow, hk, hk0, hcoll]

/-- C3, witness at a concrete input. -/
theorem c3_witness :
    rateFromChemkin "=" "" (some [1, 0, 0]) none (some [2, 3, 4]) none =
      .error (.assertionError "Troe coefficients without +M") :=
  c3_troe_without_collider "=" "" (some [1, 0, 0]) none [2, 3, 4]
    (by decide) (by simp) (by simp) (by decide)

/-! ## Claim C8: shape of the constructed PLOG rate -/

/-- C8 (code bug): for the PLOG row `(1, 2, 3, 4)`, `from_chemkin`
stores `ks = ((2, 3, 4),)` — a sequence of raw number tuples, not of
`ArrheniusFunction`s — and `Ps = ((1,),)` — a one-element tuple wrapping
the pressure list (the trailing comma in `Ps = ([c[0] for c in plog],)`)
— contradicting both the claim and `PlogRate`'s own field annotations
`ks: Tuple[ArrheniusFunction, ...]`, `Ps: Tuple[float, ...]`. -/
theorem c8_plog_shape_bug :
    rateFromChemkin "=" "" none none none (some [[1, 2, 3, 4]]) =
      .ok (.plogR (.seq [.seq [.num 2, .num 3, .num 4]]) (.seq [.seq [.num 1]])
        none true)
    ∧ PyVal.seq [PyVal.seq [PyVal.num 1]] ≠ PyVal.seq [PyVal.num 1]
    ∧ PyVal.seq [PyVal.seq [PyVal.num 2, PyVal.num 3, PyVal.num 4]] ≠
        PyVal.seq [PyVal.arrh 2 3 4 0 0] :=
  ⟨rfl, by simp, by simp⟩

/-! ## Reactions: `mecha/data/reac.py` -/

/-- The bare-collider allow-list `("M", "He", "Ne", "Ar")` from
`extract_collider` (`mecha/data/reac.py` line 275). -/
def colliderNames : List String := ["M", "He", "Ne", "Ar"]

/-- `extract_collider` (`mecha/data/reac.py` lines 266-283): if the last
reactant equals the last product and is in the allow-list, it is removed
from both lists and returned as a bare collider.  Species entries are
`Option String` because a translated name may be Python `None` (plain
names are wrapped in `some`); `rcts[-1]`/`prds[-1]` raise `IndexError`
on an empty list. -/
def extractCollider (rcts prds : List (Option String)) :
    Except PyErr (List (Option String) × List (Option String) × Option String) :=
  match rcts.getLast?, prds.getLast? with
  | none, _ => .error .indexError
  | some _, none => .error .indexError
  | some rl, some pl =>
    if rl = pl ∧ (match rl with | some n => decide (n ∈ colliderNames) | none => false) = true then
      .ok (rcts.dropLast, prds.dropLast, rl)
    else
      .ok (rcts, prds, none)

/-- The `Reaction` dataclass (`mecha/data/reac.py` lines 24-46), after
`__post_init__`.  Species entries are `Option String` as in
`extractCollider`. -/
structure Reaction where
  reactants : List (Option String)
  products : List (Option String)
  rate : Option Rate
  collider : Option String

/-- `has_collider` from `tmp_mecha/data/rate.py` lines 134-140 (the
`mecha/data/rate.py` module itself does not define `has_collider`,
although `mecha/data/reac.py` line 45 calls `rate_.has_collider`; the
claim's sources cite the `tmp_mecha` definition, which we use here):
a rate involves a collider iff its type is Activated or Falloff. -/
def hasCollider (rate : Rate) : Bool :=
  rateTypeOf rate = .activated ∨ rateTypeOf rate = .falloff

/-- `Reaction` construction including `__post_init__`
(`mecha/data/reac.py` lines 39-46):
1. `if not rate_.has_collider or not self.collider: self.collider = None`
   — the first disjunct tests the truthiness of the function object
   itself (missing call parentheses) and is always `False`, so this
   normalizes a falsy collider (`None` or `""`) to `None`;
2. `if rate_.has_collider(self.rate) and self.collider is None:
   self.collider = "M"` — `has_collider(None)` accesses `None.type_`
   and raises `AttributeError` when `rate` is `None`. -/
def mkReaction (reactants products : List (Option String)) (rate : Option Rate)
    (collider : Option String) : Except PyErr Reaction :=
  let collider := if collider = none ∨ collider = some "" then none else collider
  match rate with
  | none => .error (.attributeError "NoneType object has no attribute type_")
  | some r =>
    let collider := if hasCollider r ∧ collider = none then some "M" else collider
    .ok { reactants := reactants, products := products, rate := rate,
          collider := collider }

/-! ## Claim C10: collider normalization invariant of `Reaction` -/

/-- C10: every successfully constructed `Reaction` satisfies the
collider normalization invariant: a falsy collider argument is stored
as `None` (when the rate does not require a collider); a reaction with
a collider-requiring (Falloff/Activated) rate never ends up with
collider `None`, and gets `"M"` when no collider was supplied; a
Constant or PLOG rate with no supplied collider keeps collider `None`. -/
theorem c10_collider_invariant (rs ps : List (Option String)) (r : Rate)
    (coll : Option String) (rxn : Reaction)
    (h : mkReaction rs ps (some r) coll = .ok rxn) :
    ((coll = none ∨ coll = some "") → hasCollider r = false → rxn.collider = none)
    ∧ (hasCollider r = true → rxn.collider ≠ none)
    ∧ (hasCollider r = true → (coll = none ∨ coll = some "") →
        rxn.collider = some "M")
    ∧ ((rateTypeOf r = .constant ∨ rateTypeOf r = .plog) →
        (coll = none ∨ coll = some "") → rxn.collider = none) := by
  simp only [mkReaction, Except.ok.injEq] at h
  subst h
  refine ⟨?_, ?_, ?_, ?_⟩
  · intro hfalsy hnc
    simp [if_pos hfalsy, hnc]
  · intro hc hnone
    by_cases hfalsy : coll = none ∨ coll = some ""
    · simp [if_pos hfalsy, hc] at hnone
    · have h1 : ¬(coll = none) := fun hn => hfalsy (Or.inl hn)
      rw [if_neg hfalsy, if_neg (by simp [h1])] at hnone
      exact h1 hnone
  · intro hc hfalsy
    simp [if_pos hfalsy, hc]
  · intro ht hfalsy
    have hnc : hasCollider r = false := by
      rcases ht with h1 | h1 <;> simp [hasCollider, h1]
    simp [if_pos hfalsy, hnc]

/-- C10, witness: a Falloff-rate reaction constructed with no collider
gets collider `"M"`. -/
theorem c10_witness :
    ∃ rxn, mkReaction [some "A"] [some "B"]
        (some (Rate.simple none none (some {}) true RateType.falloff)) none =
        .ok rxn
      ∧ rxn.collider = some "M" :=
  ⟨_, rfl, (c10_collider_invariant [some "A"] [some "B"] _ none _ rfl).2.2.1
    rfl (Or.inl rfl)⟩

/-! ## Writing equations: `write_chemkin_equation` -/

/-- Python `sep.join(strs)`. -/
def strJoin (sep : String) : List String → String
  | [] => ""
  | [x] => x
  | x :: xs => x ++ sep ++ strJoin sep xs

/-- The name translation `trans_` closure used by both
`read_chemkin_equation` and `write_chemkin_equation`
(`mecha/data/reac.py` lines 197-198, 242-243):
`name if trans_dct is None else trans_dct.get(name)` — a missing entry
gives Python `None`. -/
def transName (transDct : Option (List (String × String)))
    (entry : Option String) : Option String :=
  match transDct with
  | none => entry
  | some d => entry.bind (fun n => (d.find? (fun p => p.1 = n)).map (·.2))

/-- A collider argument to `write_chemkin_equation`: either a string or
(for "mechanalyzer compatibility", line 256-258) a tuple, whose first
element is taken; tuple elements may be Python `None`. -/
inductive CollArg where
  | str (s : String)
  | tup (l : List (Option String))

/-- `write_chemkin_equation` (`mecha/data/reac.py` lines 227-263):
translate the names; if any reagent is not a string after translation,
print a diagnostic and return `None` (modelled `.ok none` — the Python
function RETURNS the value `None`, it does not raise); otherwise join
each side with `" + "`, append the collider (first element if a tuple)
to both sides with separator `" "` when it contains `"+"` and `" + "`
otherwise, and join the halves with `" = "`. -/
def writeChemkinEquation (rcts prds : List (Option String))
    (coll : Option CollArg) (transDct : Option (List (String × String))) :
    Except PyErr (Option String) :=
  let rctsT := rcts.map (transName transDct)
  let prdsT := prds.map (transName transDct)
  if (rctsT ++ prdsT).all (fun e => e.isSome) then
    let rctsStr := strJoin " + " rctsT.reduceOption
    let prdsStr := strJoin " + " prdsT.reduceOption
    match coll with
    | none => .ok (some (strJoin " = " [rctsStr, prdsStr]))
    | some ca =>
      match (match ca with
             | .str s => .ok (some s)
             | .tup [] => .error PyErr.indexError
             | .tup (e :: _) => .ok e : Except PyErr (Option String)) with
      | .error e => .error e
      | .ok none => .error (.typeError "argument of type NoneType is not iterable")
      | .ok (some c) =>
        let sep := if c.data.contains '+' then " " else " + "
        .ok (some (strJoin " = "
          [strJoin sep [rctsStr, c], strJoin sep [prdsStr, c]]))
  else
    .ok none

/-! ## Claim C6: collider separators in `write_chemkin_equation` -/

/-- C6, counterexample: the separator logic is the OPPOSITE of the
claim: a collider carrying `"+"` (falloff form `"(+M)"`) is appended
with a single space, and a bare collider (`"M"`) is appended with
`" + "` — the claim states it the other way around. -/
theorem c6_counterexample :
    writeChemkinEquation [some "H", some "O2"] [some "HO2"]
        (some (.str "(+M)")) none = .ok (some "H + O2 (+M) = HO2 (+M)")
    ∧ writeChemkinEquation [some "A"] [some "B"] (some (.str "M")) none =
        .ok (some "A + M = B + M")
    ∧ ("H + O2 (+M) = HO2 (+M)" ≠ "H + O2 + (+M) = HO2 + (+M)")
    ∧ ("A + M = B + M" ≠ "A M = B M") := by
  refine ⟨rfl, rfl, by decide, by decide⟩

/-- C6 (amended): for every reactant list, product list and collider
string, `write_chemkin_equation` appends the collider to both halves
using a single space when the collider carries a `"+"` character
(falloff form, e.g. `"(+M)"`), and the separator `" + "` otherwise
(bare form, e.g. `"M"`). -/
theorem c6_amended (rcts prds : List String) (c : String) :
    writeChemkinEquation (rcts.map some) (prds.map some) (some (.str c)) none =
      .ok (some (strJoin " = "
        [strJoin (if c.data.contains '+' then " " else " + ")
          [strJoin " + " rcts, c],
         strJoin (if c.data.contains '+' then " " else " + ")
          [strJoin " + " prds, c]])) := by
  have hmap : ∀ l : List String, (l.map some).map (transName none) = l.map some := by
    intro l; simp [transName]
  have hall : ∀ l m : List String,
      ((l.map some) ++ (m.map some)).all (fun e => e.isSome) = true := by
    intro l m; simp
  have hred : ∀ l : List String, (l.map some).reduceOption = l := by
    intro l
    induction l with
    | nil => rfl
    | cons x xs ih => simp [List.reduceOption_cons_of_some, ih]
  simp only [writeChemkinEquation, hmap, hall, hred, if_true]

/-! ## Claim C7: untranslatable species in `write_chemkin_equation` -/

/-- C7, counterexample: with a translation dictionary that has no entry
for species `"B"`, `write_chemkin_equation` does not fail with an
`UntranslatableSpecies` error carrying the offending names — it RETURNS
the value `None` (after printing a diagnostic). -/
theorem c7_counterexample :
    writeChemkinEquation [some "A"] [some "B"] none (some [("A", "X")]) =
      .ok none := rfl

/-- C7 (amended): whenever some reactant or product name has no string
translation under the supplied dictionary, `write_chemkin_equation`
returns the value `None` (no exception, and no collection of the
offending names beyond a printed diagnostic). -/
theorem c7_amended (rcts prds : List (Option String)) (coll : Option CollArg)
    (d : List (String × String))
    (h : ∃ e ∈ rcts ++ prds, transName (some d) e = none) :
    writeChemkinEquation rcts prds coll (some d) = .ok none := by
  obtain ⟨e, he, hnone⟩ := h
  have hall : ((rcts.map (transName (some d)) ++ prds.map (transName (some d))).all
      (fun e => e.isSome)) = false := by
    apply List.all_eq_false.mpr
    refine ⟨transName (some d) e, ?_, by simp [hnone]⟩
    rw [← List.map_append]
    exact List.mem_map_of_mem _ he
  simp only [writeChemkinEquation, hall, Bool.false_eq_true, if_false]

/-- C7, witness at a concrete input. -/
theorem c7_witness :
    writeChemkinEquation [some "A"] [some "B"] none (some [("A", "X")]) =
      .ok none :=
  c7_amended [some "A"] [some "B"] none [("A", "X")]
    ⟨some "B", by simp, by decide⟩

/-! ## The CHEMKIN equation parser

Character-level embedding of the pyparsing grammar used by
`read_chemkin_equation` (`mecha/data/reac.py` lines 12-21 and 200-204):

    SPECIES_NAME = Combine(WordStart(alphas)
                           + Opt(Word(printables, exclude "+=<>!)") + ~FollowedBy("+"))
                           + Opt(Word(printables, exclude "+=<>!(")))
    ARROW   = "=" ^ "=>" ^ "<=>"
    FALLOFF = Combine("(" + "+" + "M" + ")", adjacent=False)
    r_expr  = Group(delimitedList(SPECIES_NAME, delim="+") + Opt(FALLOFF))
    parser  = r_expr + ARROW + r_expr

pyparsing semantics (verified against pyparsing 3.0.9):
* the default whitespace characters `" \n\t\r"` are skipped before each
  top-level token; inside `Combine(..., adjacent=True)` the children do
  not skip, but the `Combine` itself skips leading whitespace;
* `WordStart(alphas)` passes unconditionally at position 0 and elsewhere
  requires the previous character to not be a letter and the current
  character to be a letter;
* `Word` takes a maximal nonempty run of its character set;
  `~FollowedBy("+")` inside the `Combine` inspects the immediately
  following character;
* `Literal` alternatives under `^` (`Or`) take the longest match;
* `parseString` does not require the whole input to be consumed. -/

/-- pyparsing `ParserElement.DEFAULT_WHITE_CHARS = " \n\t\r"`. -/
def ppWs (c : Char) : Bool := c = ' ' ∨ c = '\n' ∨ c = '\t' ∨ c = '\r'

/-- The non-whitespace characters of a string fragment. -/
def filterNonWs (l : List Char) : List Char := l.filter (fun c => !(ppWs c))

/-- pyparsing `printables`: printable ASCII, no whitespace. -/
def printableChar (c : Char) : Bool := 33 ≤ c.toNat ∧ c.toNat ≤ 126

/-- Character set of `SPECIES_NAME_BODY`: printables except `+=<>!)`. -/
def bodyChar (c : Char) : Bool :=
  printableChar c ∧ ¬(c = '+' ∨ c = '=' ∨ c = '<' ∨ c = '>' ∨ c = '!' ∨ c = ')')

/-- Character set of `SPECIES_NAME_END`: printables except `+=<>!(`. -/
def endChar (c : Char) : Bool :=
  printableChar c ∧ ¬(c = '+' ∨ c = '=' ∨ c = '<' ∨ c = '>' ∨ c = '!' ∨ c = '(')

/-- The `Opt(BODY) + Opt(END)` part of `SPECIES_NAME` at a
whitespace-free position: the BODY run is used when it is nonempty and
not immediately followed by `'+'` (the `~FollowedBy("+")`), then the
END run extends it; the name may be empty. -/
def nameCore (s1 : List Char) : List Char × List Char :=
  let bRun := s1.takeWhile bodyChar
  let afterB := s1.dropWhile bodyChar
  let useBody : Bool := ¬bRun.isEmpty ∧ afterB.head? ≠ some '+'
  if useBody then
    (bRun ++ afterB.takeWhile endChar, afterB.dropWhile endChar)
  else
    (s1.takeWhile endChar, s1.dropWhile endChar)

/-- `SPECIES_NAME` at the current position.  `prev` is the character
immediately before the current position (`none` at position 0 of the
parsed string).  Returns the matched name and the remaining input.
A failing `WordStart` look-behind/look-ahead fails the whole token. -/
def speciesName (prev : Option Char) (s : List Char) :
    Option (List Char × List Char) :=
  let ws := s.takeWhile ppWs
  let s1 := s.dropWhile ppWs
  let prev1 := if ws.isEmpty then prev else some ' '
  let startOk : Bool :=
    match prev1 with
    | none => true
    | some p =>
      match s1 with
      | [] => false
      | c :: _ => ¬p.isAlpha ∧ c.isAlpha
  if startOk then some (nameCore s1) else none

/-- One `delimitedList` continuation step: whitespace, the suppressed
delimiter `"+"`, then a `SPECIES_NAME` (whose previous character is the
delimiter). -/
def plusName (rest : List Char) : Option (List Char × List Char) :=
  match rest.dropWhile ppWs with
  | '+' :: r1 => speciesName (some '+') r1
  | _ => none

/-- Fuel-driven loop for the `(delim + SPECIES_NAME)*` tail of
`delimitedList`; the wrapper below supplies sufficient fuel, so the
fuel-exhausted branch is never reached. -/
def speciesTailGo : ℕ → List Char → List (List Char) × List Char
  | 0, rest => ([], rest)
  | fuel + 1, rest =>
    match plusName rest with
    | some (n, r2) =>
      let p := speciesTailGo fuel r2
      (n :: p.1, p.2)
    | none => ([], rest)

/-- The `(delim + SPECIES_NAME)*` tail of `delimitedList`. -/
def speciesTail (rest : List Char) : List (List Char) × List Char :=
  speciesTailGo (rest.length + 1) rest

/-- `delimitedList(SPECIES_NAME, delim="+")`: one name, then the tail. -/
def speciesList (prev : Option Char) (s : List Char) :
    Option (List (List Char) × List Char) :=
  match speciesName prev s with
  | none => none
  | some (n, r) =>
    let p := speciesTail r
    some (n :: p.1, p.2)

/-- `FALLOFF = Combine("(" + "+" + "M" + ")", adjacent=False)`: the four
literals with arbitrary whitespace in between; the `Combine` joins the
results to the constant `"(+M)"`. -/
def falloffTok (s : List Char) : Option (List Char) :=
  match s.dropWhile ppWs with
  | '(' :: r1 =>
    match r1.dropWhile ppWs with
    | '+' :: r2 =>
      match r2.dropWhile ppWs with
      | 'M' :: r3 =>
        match r3.dropWhile ppWs with
        | ')' :: r4 => some r4
        | _ => none
      | _ => none
    | _ => none
  | _ => none

/-- `ARROW = "=" ^ "=>" ^ "<=>"` (longest literal match). -/
def arrowTok (s : List Char) : Option (String × List Char) :=
  match s.dropWhile ppWs with
  | '<' :: '=' :: '>' :: r => some ("<=>", r)
  | '=' :: '>' :: r => some ("=>", r)
  | '=' :: r => some ("=", r)
  | _ => none

/-- Parse result of one `r_expr` group: the species names and the
optional falloff token (always the joined constant `"(+M)"`). -/
structure SideParse where
  species : List String
  falloff : Option String
deriving DecidableEq

/-- `r_expr = Group(delimitedList(SPECIES_NAME, "+") + Opt(FALLOFF))`. -/
def reagentSide (prev : Option Char) (s : List Char) :
    Option (SideParse × List Char) :=
  match speciesList prev s with
  | none => none
  | some (names, r) =>
    match falloffTok r with
    | some r2 => some ({ species := names.map (fun l => ⟨l⟩),
                         falloff := some "(+M)" }, r2)
    | none => some ({ species := names.map (fun l => ⟨l⟩),
                      falloff := none }, r)

/-- Parse result of the full equation parser
`r_expr("reactants") + ARROW("arrow") + r_expr("products")`. -/
structure EqParse where
  reactants : SideParse
  arrow : String
  products : SideParse
deriving DecidableEq

/-- The equation parser.  Returns the parse and the remaining input
(`parseString` ignores trailing text). -/
def parseEquation (s : List Char) : Option (EqParse × List Char) :=
  match reagentSide none s with
  | none => none
  | some (rside, r1) =>
    match arrowTok r1 with
    | none => none
    | some (a, r2) =>
      match reagentSide (some (a.data.getLastD '=')) r2 with
      | none => none
      | some (pside, r3) =>
        some ({ reactants := rside, arrow := a, products := pside }, r3)

/-! ## Correctness lemmas for the equation parser

These relate a successful parse to the non-whitespace characters of the
consumed input, which is what the round-trip law is about. -/

/-- `"+"`-join of character-level names, mirroring how the source text
of a parsed species list reads without whitespace. -/
def joinWithPlus : List (List Char) → List Char
  | [] => []
  | [n] => n
  | n :: ns => n ++ '+' :: joinWithPlus ns

theorem joinWithPlus_cons (n : List Char) (ns : List (List Char)) :
    joinWithPlus (n :: ns) = n ++ (ns.map (fun m => '+' :: m)).flatten := by
  induction ns generalizing n with
  | nil => simp [joinWithPlus]
  | cons m ms ih => simp [joinWithPlus, ih]

theorem joinWithPlus_append_singleton (ns : List (List Char)) (m : List Char)
    (h : ns ≠ []) :
    joinWithPlus (ns ++ [m]) = joinWithPlus ns ++ '+' :: m := by
  match ns with
  | [] => exact absurd rfl h
  | [n] => simp [joinWithPlus]
  | n :: n2 :: rest =>
    have ih := joinWithPlus_append_singleton (n2 :: rest) m (by simp)
    have e1 : joinWithPlus ((n :: n2 :: rest) ++ [m]) =
        n ++ '+' :: joinWithPlus ((n2 :: rest) ++ [m]) := rfl
    rw [e1, ih, show joinWithPlus (n :: n2 :: rest) =
      n ++ '+' :: joinWithPlus (n2 :: rest) from rfl]
    simp

theorem filterNonWs_append (a b : List Char) :
    filterNonWs (a ++ b) = filterNonWs a ++ filterNonWs b :=
  List.filter_append a b

theorem filterNonWs_allWs {w : List Char} (h : ∀ c ∈ w, ppWs c = true) :
    filterNonWs w = [] := by
  refine List.filter_eq_nil_iff.mpr (fun c hc => ?_)
  simp [h c hc]

theorem filterNonWs_noWs {n : List Char} (h : ∀ c ∈ n, ppWs c = false) :
    filterNonWs n = n :=
  List.filter_eq_self.mpr (fun c hc => by simp [h c hc])

theorem filterNonWs_cons_nonWs {c : Char} {l : List Char} (h : ppWs c = false) :
    filterNonWs (c :: l) = c :: filterNonWs l := by
  simp [filterNonWs, List.filter_cons, h]

theorem printable_not_ws {c : Char} (h : printableChar c = true) :
    ppWs c = false := by
  simp only [printableChar, Bool.decide_and, Bool.and_eq_true, decide_eq_true_eq] at h
  have h1 : c ≠ ' ' := by rintro rfl; revert h; decide
  have h2 : c ≠ '\n' := by rintro rfl; revert h; decide
  have h3 : c ≠ '\t' := by rintro rfl; revert h; decide
  have h4 : c ≠ '\r' := by rintro rfl; revert h; decide
  simp [ppWs, h1, h2, h3, h4]

theorem bodyChar_not_ws {c : Char} (h : bodyChar c = true) : ppWs c = false := by
  simp only [bodyChar, Bool.decide_and, Bool.and_eq_true] at h
  exact printable_not_ws (by simpa using h.1)

theorem endChar_not_ws {c : Char} (h : endChar c = true) : ppWs c = false := by
  simp only [endChar, Bool.decide_and, Bool.and_eq_true] at h
  exact printable_not_ws (by simpa using h.1)

theorem nameCore_spec (s1 : List Char) :
    s1 = (nameCore s1).1 ++ (nameCore s1).2
    ∧ ∀ c ∈ (nameCore s1).1, ppWs c = false := by
  simp only [nameCore]
  split
  · constructor
    · conv_lhs => rw [← List.takeWhile_append_dropWhile (p := bodyChar) (l := s1)]
      conv_lhs =>
        rw [← List.takeWhile_append_dropWhile (p := endChar)
          (l := s1.dropWhile bodyChar)]
      simp [List.append_assoc]
    · intro c hc
      rcases List.mem_append.mp hc with h1 | h1
      · exact bodyChar_not_ws (List.mem_takeWhile_imp h1)
      · exact endChar_not_ws (List.mem_takeWhile_imp h1)
  · constructor
    · conv_lhs => rw [← List.takeWhile_append_dropWhile (p := endChar) (l := s1)]
    · intro c hc
      exact endChar_not_ws (List.mem_takeWhile_imp hc)

theorem speciesName_spec {prev : Option Char} {s n r : List Char}
    (h : speciesName prev s = some (n, r)) :
    ∃ w, s = w ++ n ++ r ∧ (∀ c ∈ w, ppWs c = true)
      ∧ (∀ c ∈ n, ppWs c = false) := by
  simp only [speciesName] at h
  have main : nameCore (s.dropWhile ppWs) = (n, r) →
      ∃ w, s = w ++ n ++ r ∧ (∀ c ∈ w, ppWs c = true)
        ∧ (∀ c ∈ n, ppWs c = false) := by
    intro hcore
    obtain ⟨hsplit, hchars⟩ := nameCore_spec (s.dropWhile ppWs)
    have hsplit2 : s.dropWhile ppWs = n ++ r := by rw [hsplit, hcore]
    have hchars2 : ∀ c ∈ n, ppWs c = false := by
      rw [hcore] at hchars; exact hchars
    refine ⟨s.takeWhile ppWs, ?_, fun c hc => List.mem_takeWhile_imp hc, hchars2⟩
    conv_lhs => rw [← List.takeWhile_append_dropWhile (p := ppWs) (l := s)]
    rw [hsplit2, List.append_assoc]
  split at h
  · split at h
    · exact main (Option.some.inj h)
    · exact absurd h (by simp)
  · split at h
    · exact main (Option.some.inj h)
    · exact absurd h (by simp)

theorem speciesName_length {prev : Option Char} {s n r : List Char}
    (h : speciesName prev s = some (n, r)) : r.length ≤ s.length := by
  obtain ⟨w, hsplit, -, -⟩ := speciesName_spec h
  rw [hsplit]; simp; omega

theorem plusName_spec {rest n r2 : List Char}
    (h : plusName rest = some (n, r2)) :
    ∃ pre, rest = pre ++ r2 ∧ filterNonWs pre = '+' :: n
      ∧ (∀ c ∈ n, ppWs c = false) ∧ r2.length < rest.length := by
  unfold plusName at h
  split at h
  case _ r1 heq =>
    obtain ⟨w, hsplit, hws, hnws⟩ := speciesName_spec h
    have hrest : rest = rest.takeWhile ppWs ++ '+' :: r1 := by
      conv_lhs => rw [← List.takeWhile_append_dropWhile (p := ppWs) (l := rest)]
      rw [heq]
    refine ⟨rest.takeWhile ppWs ++ '+' :: (w ++ n), ?_, ?_, hnws, ?_⟩
    · conv_lhs => rw [hrest, hsplit]
      simp
    · rw [filterNonWs_append,
        filterNonWs_allWs (fun c hc => List.mem_takeWhile_imp hc),
        filterNonWs_cons_nonWs (by decide), filterNonWs_append,
        filterNonWs_allWs hws, filterNonWs_noWs hnws]
      simp
    · conv_rhs => rw [hrest, hsplit]
      simp only [List.length_append, List.length_cons]
      omega
  case _ => exact absurd h (by simp)

theorem speciesTailGo_spec (fuel : ℕ) :
    ∀ rest : List Char, rest.length < fuel →
    ∃ mid, rest = mid ++ (speciesTailGo fuel rest).2
      ∧ filterNonWs mid =
          ((speciesTailGo fuel rest).1.map (fun m => '+' :: m)).flatten
      ∧ ∀ m ∈ (speciesTailGo fuel rest).1, ∀ c ∈ m, ppWs c = false := by
  induction fuel with
  | zero => intro rest h; omega
  | succ f ih =>
    intro rest h
    rcases hpn : plusName rest with - | ⟨n, r2⟩
    · refine ⟨[], ?_, ?_, ?_⟩ <;> simp [speciesTailGo, hpn, filterNonWs]
    · obtain ⟨pre, hsplit, hfil, hnws, hlt⟩ := plusName_spec hpn
      obtain ⟨mid, hm1, hm2, hm3⟩ := ih r2 (by omega)
      refine ⟨pre ++ mid, ?_, ?_, ?_⟩
      · simp only [speciesTailGo, hpn]
        rw [List.append_assoc, ← hm1, hsplit]
      · simp only [speciesTailGo, hpn, List.map_cons, List.flatten_cons]
        rw [filterNonWs_append, hfil, hm2]
      · simp only [speciesTailGo, hpn, List.mem_cons]
        rintro m (rfl | hm)
        · exact hnws
        · exact hm3 m hm

theorem speciesTail_spec (rest : List Char) :
    ∃ mid, rest = mid ++ (speciesTail rest).2
      ∧ filterNonWs mid =
          ((speciesTail rest).1.map (fun m => '+' :: m)).flatten
      ∧ ∀ m ∈ (speciesTail rest).1, ∀ c ∈ m, ppWs c = false :=
  speciesTailGo_spec (rest.length + 1) rest (by omega)

theorem speciesList_spec {prev : Option Char} {s : List Char}
    {ns : List (List Char)} {r : List Char}
    (h : speciesList prev s = some (ns, r)) :
    ∃ pre, s = pre ++ r ∧ filterNonWs pre = joinWithPlus ns
      ∧ (∀ m ∈ ns, ∀ c ∈ m, ppWs c = false) ∧ ns ≠ [] := by
  unfold speciesList at h
  split at h
  · exact absurd h (by simp)
  case _ n r1 heq =>
    obtain ⟨w, hw, hws, hnws⟩ := speciesName_spec heq
    obtain ⟨mid, hm1, hm2, hm3⟩ := speciesTail_spec r1
    have hp : (n :: (speciesTail r1).1, (speciesTail r1).2) = (ns, r) := by
      injection h
    have hns1 : ns = n :: (speciesTail r1).1 := by
      injection hp with h1 h2; rw [← h1]
    have hns2 : r = (speciesTail r1).2 := by
      injection hp with h1 h2; rw [← h2]
    refine ⟨w ++ n ++ mid, ?_, ?_, ?_, by simp [hns1]⟩
    · rw [hw, hm1, hns2]; simp
    · rw [filterNonWs_append, filterNonWs_append,
        filterNonWs_allWs hws, filterNonWs_noWs hnws, hm2, hns1,
        joinWithPlus_cons]
      simp
    · rw [hns1]
      simp only [List.mem_cons]
      rintro m (rfl | hm)
      · exact hnws
      · exact hm3 m hm

theorem falloffTok_spec {s r : List Char} (h : falloffTok s = some r) :
    ∃ pre, s = pre ++ r ∧ filterNonWs pre = ['(', '+', 'M', ')'] := by
  unfold falloffTok at h
  split at h
  case _ r1 h1 =>
    split at h
    case _ r2 h2 =>
      split at h
      case _ r3 h3 =>
        split at h
        case _ r4 h4 =>
          injection h with h'
          subst h'
          have e0 : s = s.takeWhile ppWs ++ '(' :: r1 := by
            conv_lhs => rw [← List.takeWhile_append_dropWhile (p := ppWs) (l := s)]
            rw [h1]
          have e1 : r1 = r1.takeWhile ppWs ++ '+' :: r2 := by
            conv_lhs => rw [← List.takeWhile_append_dropWhile (p := ppWs) (l := r1)]
            rw [h2]
          have e2 : r2 = r2.takeWhile ppWs ++ 'M' :: r3 := by
            conv_lhs => rw [← List.takeWhile_append_dropWhile (p := ppWs) (l := r2)]
            rw [h3]
          have e3 : r3 = r3.takeWhile ppWs ++ ')' :: r4 := by
            conv_lhs => rw [← List.takeWhile_append_dropWhile (p := ppWs) (l := r3)]
            rw [h4]
          refine ⟨s.takeWhile ppWs ++ '(' :: (r1.takeWhile ppWs ++ '+' ::
            (r2.takeWhile ppWs ++ 'M' :: (r3.takeWhile ppWs ++ [')']))), ?_, ?_⟩
          · conv_lhs => rw [e0, e1, e2, e3]
            simp
          · rw [filterNonWs_append,
              filterNonWs_allWs (fun c hc => List.mem_takeWhile_imp hc),
              filterNonWs_cons_nonWs (by decide), filterNonWs_append,
              filterNonWs_allWs (fun c hc => List.mem_takeWhile_imp hc),
              filterNonWs_cons_nonWs (by decide), filterNonWs_append,
              filterNonWs_allWs (fun c hc => List.mem_takeWhile_imp hc),
              filterNonWs_cons_nonWs (by decide), filterNonWs_append,
              filterNonWs_allWs (fun c hc => List.mem_takeWhile_imp hc)]
            rfl
        case _ => exact absurd h (by simp)
      case _ => exact absurd h (by simp)
    case _ => exact absurd h (by simp)
  case _ => exact absurd h (by simp)

theorem arrowTok_spec {s : List Char} {a : String} {r : List Char}
    (h : arrowTok s = some (a, r)) :
    ∃ w, s = w ++ a.data ++ r ∧ (∀ c ∈ w, ppWs c = true)
      ∧ (a = "<=>" ∨ a = "=>" ∨ a = "=") := by
  unfold arrowTok at h
  have base : ∀ (chars : List Char), s.dropWhile ppWs = chars ++ r →
      ∀ aval : String, aval.data = chars →
      s = s.takeWhile ppWs ++ aval.data ++ r := by
    intro chars hchars aval hdata
    conv_lhs => rw [← List.takeWhile_append_dropWhile (p := ppWs) (l := s)]
    rw [hchars, hdata, List.append_assoc]
  split at h
  case _ r1 heq =>
    injection h with h'
    injection h' with ha hr
    subst ha; subst hr
    exact ⟨s.takeWhile ppWs, base ['<', '=', '>'] (by rw [heq]; rfl) _ rfl,
      fun c hc => List.mem_takeWhile_imp hc, Or.inl rfl⟩
  case _ r1 heq =>
    injection h with h'
    injection h' with ha hr
    subst ha; subst hr
    exact ⟨s.takeWhile ppWs, base ['=', '>'] (by rw [heq]; rfl) _ rfl,
      fun c hc => List.mem_takeWhile_imp hc, Or.inr (Or.inl rfl)⟩
  case _ r1 hne heq =>
    injection h with h'
    injection h' with ha hr
    subst ha; subst hr
    exact ⟨s.takeWhile ppWs, base ['='] (by rw [heq]; rfl) _ rfl,
      fun c hc => List.mem_takeWhile_imp hc, Or.inr (Or.inr rfl)⟩
  case _ => exact absurd h (by simp)

theorem mapMkData (names : List (List Char)) :
    (names.map (fun l => (⟨l⟩ : String))).map String.data = names := by
  rw [List.map_map]
  have hid : (String.data ∘ fun l => (⟨l⟩ : String)) = id := rfl
  rw [hid, List.map_id]

theorem reagentSide_spec {prev : Option Char} {s : List Char} {sp : SideParse}
    {r : List Char} (h : reagentSide prev s = some (sp, r)) :
    ∃ pre, s = pre ++ r
      ∧ filterNonWs pre = joinWithPlus (sp.species.map String.data)
          ++ (match sp.falloff with
              | some _ => ['(', '+', 'M', ')'] | none => [])
      ∧ (∀ nm ∈ sp.species, ∀ c ∈ nm.data, ppWs c = false)
      ∧ sp.species ≠ []
      ∧ (sp.falloff = none ∨ sp.falloff = some "(+M)") := by
  unfold reagentSide at h
  split at h
  · exact absurd h (by simp)
  case _ names r1 heq =>
    obtain ⟨pre1, hp1, hf1, hnws1, hne1⟩ := speciesList_spec heq
    split at h
    case _ r2 hfo =>
      obtain ⟨pre2, hp2, hf2⟩ := falloffTok_spec hfo
      injection h with h'
      injection h' with hsp hr
      subst hsp; subst hr
      refine ⟨pre1 ++ pre2, ?_, ?_, ?_, ?_, Or.inr rfl⟩
      · rw [hp1, hp2]; simp
      · rw [filterNonWs_append, hf1, hf2, mapMkData]
      · simp only [List.mem_map]
        rintro nm ⟨l, hl, rfl⟩
        exact hnws1 l hl
      · simp [hne1]
    case _ =>
      injection h with h'
      injection h' with hsp hr
      subst hsp; subst hr
      refine ⟨pre1, hp1, ?_, ?_, ?_, Or.inl rfl⟩
      · rw [hf1, mapMkData]; simp
      · simp only [List.mem_map]
        rintro nm ⟨l, hl, rfl⟩
        exact hnws1 l hl
      · simp [hne1]

theorem parseEquation_spec {s : List Char} {res : EqParse} {rest : List Char}
    (h : parseEquation s = some (res, rest)) :
    filterNonWs s =
      joinWithPlus (res.reactants.species.map String.data)
        ++ (match res.reactants.falloff with
            | some _ => ['(', '+', 'M', ')'] | none => [])
        ++ res.arrow.data
        ++ joinWithPlus (res.products.species.map String.data)
        ++ (match res.products.falloff with
            | some _ => ['(', '+', 'M', ')'] | none => [])
        ++ filterNonWs rest
    ∧ (∀ nm ∈ res.reactants.species ++ res.products.species,
        ∀ c ∈ nm.data, ppWs c = false)
    ∧ res.reactants.species ≠ [] ∧ res.products.species ≠ []
    ∧ (res.arrow = "<=>" ∨ res.arrow = "=>" ∨ res.arrow = "=")
    ∧ (res.reactants.falloff = none ∨ res.reactants.falloff = some "(+M)")
    ∧ (res.products.falloff = none ∨ res.products.falloff = some "(+M)") := by
  unfold parseEquation at h
  split at h
  · exact absurd h (by simp)
  case _ rside r1 heqr =>
    split at h
    · exact absurd h (by simp)
    case _ a r2 heqa =>
      split at h
      · exact absurd h (by simp)
      case _ pside r3 heqp =>
        injection h with h'
        injection h' with hres hrest
        subst hres; subst hrest
        obtain ⟨pre1, hp1, hf1, hnws1, hne1, hfo1⟩ := reagentSide_spec heqr
        obtain ⟨w2, hp2, hws2, harr⟩ := arrowTok_spec heqa
        obtain ⟨pre3, hp3, hf3, hnws3, hne3, hfo3⟩ := reagentSide_spec heqp
        have harrnws : ∀ c ∈ a.data, ppWs c = false := by
          rcases harr with rfl | rfl | rfl <;> decide
        refine ⟨?_, ?_, hne1, hne3, harr, hfo1, hfo3⟩
        · have : s = pre1 ++ (w2 ++ a.data ++ (pre3 ++ r3)) := by
            rw [← hp3, ← hp2, hp1]
          rw [this]
          repeat rw [filterNonWs_append]
          rw [hf1, hf3, filterNonWs_allWs hws2, filterNonWs_noWs harrnws]
          simp [List.append_assoc]
        · intro nm hnm
          rcases List.mem_append.mp hnm with h1 | h1
          · exact hnws1 nm h1
          · exact hnws3 nm h1

/-! ## `read_chemkin_equation` (`mecha/data/reac.py` lines 182-224) -/

/-- `coll[1:-1].lstrip(" +")` (line 219): strip the surrounding
parentheses and any leading spaces/pluses of a falloff collider. -/
def stripBareColl (c : String) : String :=
  ⟨((c.data.drop 1).dropLast).dropWhile (fun x => x = ' ' ∨ x = '+')⟩

/-- `read_chemkin_equation`: parse the equation with the grammar above
(`parseString` ignores trailing text), apply the optional name
translation, extract a bare collider, then handle the falloff tokens:
a reactant-side falloff requires a product-side falloff (assert) and no
extracted bare collider (assert), and becomes the collider with spaces
removed.  With `bareColl` the parentheses/plus are stripped; with
`tupleColl` the collider is wrapped in a 1-tuple. -/
def readChemkinEquation (eq : String)
    (transDct : Option (List (String × String))) (bareColl tupleColl : Bool) :
    Except PyErr (List (Option String) × List (Option String) × Option CollArg) :=
  match parseEquation eq.data with
  | none => .error .parseException
  | some (pr, _) =>
    let rcts := pr.reactants.species.map (fun n => transName transDct (some n))
    let prds := pr.products.species.map (fun n => transName transDct (some n))
    match extractCollider rcts prds with
    | .error e => .error e
    | .ok (rcts2, prds2, coll0) =>
      match (match pr.reactants.falloff with
        | some fo =>
          if pr.products.falloff = none then
            .error (.assertionError "Failed to parse falloff")
          else if coll0 ≠ none then
            .error (.assertionError "Cannot have collider with falloff")
          else .ok (some (removeAllChar ' ' fo))
        | none => .ok coll0 : Except PyErr (Option String)) with
      | .error e => .error e
      | .ok coll1 =>
        let coll2 := if bareColl then
            (match coll1 with
             | some c =>
               if c.data.head? = some '(' then some (stripBareColl c) else some c
             | none => none)
          else coll1
        if tupleColl then .ok (rcts2, prds2, some (.tup [coll2]))
        else .ok (rcts2, prds2, coll2.map .str)

/-- Whitespace normalization for the round-trip law: remove all
whitespace characters. -/
def wsNormalize (s : String) : String := ⟨filterNonWs s.data⟩

/-! ## Claim C4: equation round-trip -/

/-- C4, counterexample: the equation `"A => B"` is accepted by the
parser, but the parse result does not retain the arrow, and
`write_chemkin_equation` always formats with `" = "`; the round-trip
changes `"=>"` to `"="`, which no whitespace normalization can repair. -/
theorem c4_counterexample :
    readChemkinEquation "A => B" none false false =
      .ok ([some "A"], [some "B"], none)
    ∧ writeChemkinEquation [some "A"] [some "B"] none none = .ok (some "A = B")
    ∧ wsNormalize "A = B" ≠ wsNormalize "A => B" := by
  refine ⟨rfl, rfl, by decide⟩

/-! ## Helper lemmas for the round-trip proof -/

theorem reduceOption_map_some (l : List String) :
    (l.map some).reduceOption = l := by
  induction l with
  | nil => rfl
  | cons x xs ih => simp [List.reduceOption_cons_of_some, ih]

theorem transName_none_fun : (fun n => transName none (some n)) = some := rfl

theorem map_transName_none (l : List String) :
    (l.map some).map (transName none) = l.map some := by
  rw [List.map_map]; rfl

theorem all_isSome_map_some (a b : List String) :
    ((a.map some) ++ (b.map some)).all (fun e => e.isSome) = true := by
  simp

/-- Evaluation of `write_chemkin_equation` with translated string
reagents and no collider. -/
theorem writeCE_noColl (a b : List String) :
    writeChemkinEquation (a.map some) (b.map some) none none =
      .ok (some (strJoin " = " [strJoin " + " a, strJoin " + " b])) := by
  simp only [writeChemkinEquation, map_transName_none,
    all_isSome_map_some, if_true, reduceOption_map_some]

/-- Evaluation of `write_chemkin_equation` with translated string
reagents and a string collider. -/
theorem writeCE_strColl (a b : List String) (c : String) :
    writeChemkinEquation (a.map some) (b.map some) (some (.str c)) none =
      .ok (some (strJoin " = "
        [strJoin (if c.data.contains '+' then " " else " + ")
          [strJoin " + " a, c],
         strJoin (if c.data.contains '+' then " " else " + ")
          [strJoin " + " b, c]])) := by
  simp only [writeChemkinEquation, map_transName_none,
    all_isSome_map_some, if_true, reduceOption_map_some]

theorem filterNonWs_strJoinPlus (names : List String)
    (h : ∀ nm ∈ names, ∀ c ∈ nm.data, ppWs c = false) :
    filterNonWs (strJoin " + " names).data =
      joinWithPlus (names.map String.data) := by
  match names with
  | [] => rfl
  | [n] =>
    show filterNonWs n.data = joinWithPlus [n.data]
    rw [filterNonWs_noWs (h n (by simp))]
    rfl
  | n :: n2 :: rest =>
    have ih := filterNonWs_strJoinPlus (n2 :: rest)
      (fun nm hnm => h nm (List.mem_cons_of_mem _ hnm))
    have e1 : (strJoin " + " (n :: n2 :: rest)).data =
        n.data ++ (" + ".data ++ (strJoin " + " (n2 :: rest)).data) := by
      rw [show strJoin " + " (n :: n2 :: rest) =
        n ++ " + " ++ strJoin " + " (n2 :: rest) from rfl]
      rw [String.data_append, String.data_append, List.append_assoc]
    rw [e1, filterNonWs_append, filterNonWs_append,
      filterNonWs_noWs (h n (by simp)), ih,
      show filterNonWs " + ".data = ['+'] from rfl,
      show (n :: n2 :: rest).map String.data =
        n.data :: (n2 :: rest).map String.data from rfl,
      show joinWithPlus (n.data :: (n2 :: rest).map String.data) =
        n.data ++ '+' :: joinWithPlus ((n2 :: rest).map String.data) by
          rw [show (n2 :: rest).map String.data =
            n2.data :: rest.map String.data from rfl]
          rfl]
    simp

theorem getLast?_map_some {l : List String} {x : String}
    (h : (l.map some).getLast? = some (some x)) : l.getLast? = some x := by
  induction l with
  | nil => simp at h
  | cons a as ih =>
    match as with
    | [] => simpa using h
    | b :: bs =>
      have : ((b :: bs).map some).getLast? = some (some x) := by
        simpa [List.getLast?] using h
      simpa [List.getLast?] using ih this

theorem eq_dropLast_append_of_getLast? {α : Type} {l : List α} {x : α}
    (h : l.getLast? = some x) : l = l.dropLast ++ [x] := by
  induction l using List.reverseRecOn with
  | nil => simp at h
  | append_singleton ys y ih =>
    rw [List.getLast?_concat] at h
    injection h with h'
    subst h'
    simp

theorem extractCollider_cases {rs ps rs2 ps2 : List (Option String)}
    {c0 : Option String}
    (h : extractCollider rs ps = .ok (rs2, ps2, c0)) :
    (c0 = none ∧ rs2 = rs ∧ ps2 = ps) ∨
    (∃ cn : String, c0 = some cn ∧ cn ∈ colliderNames
      ∧ rs.getLast? = some (some cn) ∧ ps.getLast? = some (some cn)
      ∧ rs2 = rs.dropLast ∧ ps2 = ps.dropLast) := by
  unfold extractCollider at h
  split at h
  · exact absurd h (by simp)
  · exact absurd h (by simp)
  case _ rl pl hrl hpl =>
    split at h
    case isTrue hcond =>
      injection h with h'
      injection h' with h1 h23
      injection h23 with h2 h3
      obtain ⟨heq, hmem⟩ := hcond
      right
      match rl, hmem with
      | some cn, hmem =>
        have hcn : cn ∈ colliderNames := of_decide_eq_true hmem
        subst heq
        exact ⟨cn, h3.symm, hcn, hrl, hpl, h1.symm, h2.symm⟩
    case isFalse =>
      injection h with h'
      injection h' with h1 h23
      injection h23 with h2 h3
      exact Or.inl ⟨h3.symm, h1.symm, h2.symm⟩

theorem colliderName_no_plus {cn : String} (h : cn ∈ colliderNames) :
    cn.data.contains '+' = false := by
  simp only [colliderNames, List.mem_cons, List.mem_singleton,
    List.not_mem_nil, or_false] at h
  rcases h with rfl | rfl | rfl | rfl <;> rfl

theorem colliderName_no_ws {cn : String} (h : cn ∈ colliderNames) :
    ∀ c ∈ cn.data, ppWs c = false := by
  simp only [colliderNames, List.mem_cons, List.mem_singleton,
    List.not_mem_nil, or_false] at h
  rcases h with rfl | rfl | rfl | rfl <;> decide

theorem joinWithPlus_extract {R : List String} {cn : String}
    (hlast : R.getLast? = some cn) (hne : R.dropLast ≠ []) :
    joinWithPlus (R.map String.data) =
      joinWithPlus (R.dropLast.map String.data) ++ '+' :: cn.data := by
  conv_lhs => rw [eq_dropLast_append_of_getLast? hlast]
  rw [List.map_append, show ([cn].map String.data) = [cn.data] from rfl]
  exact joinWithPlus_append_singleton _ _
    (fun hnil => hne (List.length_eq_zero.mp
      (by simpa using congrArg List.length hnil)))

/-- C4 (amended): for every equation string accepted by the equation
parser such that (i) the arrow is `"="` (for `"=>"`/`"<=>"` the arrow is
not retained and re-formatting uses `" = "`), (ii) only whitespace
follows the parsed equation (`parseString` silently ignores trailing
text), (iii) the falloff marker appears on both sides or neither and
does not clash with a bare collider (otherwise the reader raises), and
(iv) the reactant and product lists are non-empty after bare-collider
extraction, formatting the parsed `(reactants, products, collider)`
triple with `write_chemkin_equation` and no translation reproduces the
input equation up to removal of whitespace. -/
theorem c4_amended (eq : String) (res : EqParse) (rest : List Char)
    (hp : parseEquation eq.data = some (res, rest))
    (hrest : ∀ c ∈ rest, ppWs c = true)
    (harrow : res.arrow = "=")
    (hfo : res.reactants.falloff = res.products.falloff)
    (rcts prds : List (Option String)) (coll0 : Option String)
    (hx : extractCollider (res.reactants.species.map some)
            (res.products.species.map some) = .ok (rcts, prds, coll0))
    (hfc : res.reactants.falloff ≠ none → coll0 = none)
    (hrne : rcts ≠ []) (hpne : prds ≠ []) :
    ∃ cA w, readChemkinEquation eq none false false = .ok (rcts, prds, cA)
      ∧ writeChemkinEquation rcts prds cA none = .ok (some w)
      ∧ wsNormalize w = wsNormalize eq := by
  obtain ⟨hfil, hnws, hneR, hneP, harrs, hfoR, hfoP⟩ := parseEquation_spec hp
  have hrestnil : filterNonWs rest = [] := filterNonWs_allWs hrest
  have hnwsR : ∀ nm ∈ res.reactants.species, ∀ c ∈ nm.data, ppWs c = false :=
    fun nm hnm => hnws nm (List.mem_append.mpr (Or.inl hnm))
  have hnwsP : ∀ nm ∈ res.products.species, ∀ c ∈ nm.data, ppWs c = false :=
    fun nm hnm => hnws nm (List.mem_append.mpr (Or.inr hnm))
  rw [harrow] at hfil
  rcases extractCollider_cases hx with
    ⟨hc0, hr2, hp2⟩ | ⟨cn, hc0, hcn, hlastR, hlastP, hr2, hp2⟩
  · -- no bare collider extracted
    rcases hfoR with hfoR | hfoR
    · -- no falloff on the reactant side, hence none on the product side
      have hfoP2 : res.products.falloff = none := by rw [← hfo]; exact hfoR
      refine ⟨none, strJoin " = " [strJoin " + " res.reactants.species,
        strJoin " + " res.products.species], ?_, ?_, ?_⟩
      · simp only [readChemkinEquation, hp, transName_none_fun, hx, hfoR,
          Bool.false_eq_true, if_false]
        rw [hc0, hr2, hp2]
        rfl
      · rw [hr2, hp2]
        exact writeCE_noColl _ _
      · have hw : (strJoin " = " [strJoin " + " res.reactants.species,
            strJoin " + " res.products.species]).data =
            (strJoin " + " res.reactants.species).data ++ (" = ".data ++
              (strJoin " + " res.products.species).data) := by
          rw [show strJoin " = " [strJoin " + " res.reactants.species,
            strJoin " + " res.products.species] =
            strJoin " + " res.reactants.species ++ " = " ++
              strJoin " + " res.products.species from rfl]
          rw [String.data_append, String.data_append, List.append_assoc]
        show String.mk _ = String.mk _
        rw [hw, filterNonWs_append, filterNonWs_append,
          filterNonWs_strJoinPlus _ hnwsR, filterNonWs_strJoinPlus _ hnwsP,
          show filterNonWs " = ".data = ['='] from rfl, hfil, hfoR, hfoP2,
          hrestnil]
        simp
    · -- falloff "(+M)" on both sides
      have hfoP2 : res.products.falloff = some "(+M)" := by
        rw [← hfo]; exact hfoR
      have hc0n : coll0 = none := hc0
      refine ⟨some (.str "(+M)"),
        strJoin " = " [strJoin " " [strJoin " + " res.reactants.species, "(+M)"],
          strJoin " " [strJoin " + " res.products.species, "(+M)"]], ?_, ?_, ?_⟩
      · simp only [readChemkinEquation, hp, transName_none_fun, hx, hfoR, hfoP2]
        rw [hc0n, hr2, hp2]
        rfl
      · rw [hr2, hp2]
        have := writeCE_strColl res.reactants.species res.products.species "(+M)"
        rw [show ("(+M)".data.contains '+') = true from rfl] at this
        simpa using this
      · have hw : (strJoin " = "
            [strJoin " " [strJoin " + " res.reactants.species, "(+M)"],
             strJoin " " [strJoin " + " res.products.species, "(+M)"]]).data =
            (strJoin " + " res.reactants.species).data ++ (" ".data ++
              ("(+M)".data ++ (" = ".data ++
              ((strJoin " + " res.products.species).data ++ (" ".data ++
              "(+M)".data))))) := by
          rw [show strJoin " = "
            [strJoin " " [strJoin " + " res.reactants.species, "(+M)"],
             strJoin " " [strJoin " + " res.products.species, "(+M)"]] =
            strJoin " + " res.reactants.species ++ " " ++ "(+M)" ++ " = " ++
              (strJoin " + " res.products.species ++ " " ++ "(+M)") from rfl]
          simp [String.data_append, List.append_assoc]
        show String.mk _ = String.mk _
        rw [hw]
        repeat rw [filterNonWs_append]
        rw [filterNonWs_strJoinPlus _ hnwsR, filterNonWs_strJoinPlus _ hnwsP,
          show filterNonWs " ".data = [] from rfl,
          show filterNonWs "(+M)".data = ['(', '+', 'M', ')'] from rfl,
          show filterNonWs " = ".data = ['='] from rfl,
          hfil, hfoR, hfoP2, hrestnil]
        simp
  · -- a bare collider cn was extracted
    have hfoR : res.reactants.falloff = none := by
      by_contra hne
      rw [hfc hne] at hc0
      exact Option.noConfusion hc0
    have hfoP2 : res.products.falloff = none := by rw [← hfo]; exact hfoR
    have hrd : rcts = res.reactants.species.dropLast.map some := by
      rw [hr2, List.map_dropLast]
    have hpd : prds = res.products.species.dropLast.map some := by
      rw [hp2, List.map_dropLast]
    have hRdne : res.reactants.species.dropLast ≠ [] := by
      intro hnil; rw [hrd, hnil] at hrne; exact hrne rfl
    have hPdne : res.products.species.dropLast ≠ [] := by
      intro hnil; rw [hpd, hnil] at hpne; exact hpne rfl
    have hlastR2 : res.reactants.species.getLast? = some cn :=
      getLast?_map_some hlastR
    have hlastP2 : res.products.species.getLast? = some cn :=
      getLast?_map_some hlastP
    refine ⟨some (.str cn),
      strJoin " = "
        [strJoin " + " [strJoin " + " res.reactants.species.dropLast, cn],
         strJoin " + " [strJoin " + " res.products.species.dropLast, cn]],
      ?_, ?_, ?_⟩
    · simp only [readChemkinEquation, hp, transName_none_fun, hx, hfoR]
      rw [hc0]
      rfl
    · rw [hrd, hpd]
      have := writeCE_strColl res.reactants.species.dropLast
        res.products.species.dropLast cn
      rw [colliderName_no_plus hcn] at this
      simpa using this
    · have hw : (strJoin " = "
          [strJoin " + " [strJoin " + " res.reactants.species.dropLast, cn],
           strJoin " + " [strJoin " + " res.products.species.dropLast, cn]]).data =
          (strJoin " + " res.reactants.species.dropLast).data ++ (" + ".data ++
            (cn.data ++ (" = ".data ++
            ((strJoin " + " res.products.species.dropLast).data ++ (" + ".data ++
            cn.data))))) := by
        rw [show strJoin " = "
          [strJoin " + " [strJoin " + " res.reactants.species.dropLast, cn],
           strJoin " + " [strJoin " + " res.products.species.dropLast, cn]] =
          strJoin " + " res.reactants.species.dropLast ++ " + " ++ cn ++ " = " ++
            (strJoin " + " res.products.species.dropLast ++ " + " ++ cn)
          from rfl]
        simp [String.data_append, List.append_assoc]
      show String.mk _ = String.mk _
      rw [hw]
      repeat rw [filterNonWs_append]
      rw [filterNonWs_strJoinPlus _
          (fun nm hnm => hnwsR nm (List.dropLast_subset _ hnm)),
        filterNonWs_strJoinPlus _
          (fun nm hnm => hnwsP nm (List.dropLast_subset _ hnm)),
        filterNonWs_noWs (colliderName_no_ws hcn),
        show filterNonWs " + ".data = ['+'] from rfl,
        show filterNonWs " = ".data = ['='] from rfl,
        hfil, hfoR, hfoP2, hrestnil,
        joinWithPlus_extract hlastR2 hRdne, joinWithPlus_extract hlastP2 hPdne]
      simp

/-- C4, witness: the round-trip at the falloff equation
`"H + O2 (+M) = HO2 (+M)"`. -/
theorem c4_witness :
    ∃ cA w, readChemkinEquation "H + O2 (+M) = HO2 (+M)" none false false =
        .ok ([some "H", some "O2"], [some "HO2"], cA)
      ∧ writeChemkinEquation [some "H", some "O2"] [some "HO2"] cA none =
        .ok (some w)
      ∧ wsNormalize w = wsNormalize "H + O2 (+M) = HO2 (+M)" :=
  c4_amended "H + O2 (+M) = HO2 (+M)"
    { reactants := { species := ["H", "O2"], falloff := some "(+M)" },
      arrow := "=",
      products := { species := ["HO2"], falloff := some "(+M)" } } []
    rfl (by simp) rfl rfl [some "H", some "O2"] [some "HO2"] none rfl
    (fun _ => rfl) (by simp) (by simp)

/-! ## The block scanner: `block` (`mecha/io/chemkin/read.py` lines
164-179, identical in `mecha/chemkin/read.py` lines 168-183)

`pp.Suppress(...) + pp.QuotedString(key, end_quote_char="END",
multiline=True)` scans for the first position where the quoted-string
expression matches, i.e. the first occurrence of `key` as a raw,
case-SENSITIVE substring that is followed (anywhere) by the raw
substring `"END"`; the result is the text strictly between that `key`
occurrence and the first following `"END"`.  If `key` never occurs, or
no `"END"` follows its first occurrence, pyparsing raises a
`ParseException` — one and the same exception type in both situations.
With `comments=False` (the Python default) the block text is returned
with comments (`!` to end of line) removed. -/

/-- Split a character list at the first occurrence of `pat`: returns
the part before and the part after the occurrence. -/
def splitFirstSub (s pat : List Char) : Option (List Char × List Char) :=
  if pat.isPrefixOf s then some ([], s.drop pat.length)
  else
    match s with
    | [] => none
    | c :: cs => (splitFirstSub cs pat).map (fun p => (c :: p.1, p.2))

/-- Comment removal, `re.sub(r"!.*$", "", s, flags=re.M)`: drop from
each `!` to the end of its line (`.` does not match the newline). -/
def dropCommentsSt : Bool → List Char → List Char
  | _, [] => []
  | true, c :: rest =>
    if c = '\n' then c :: dropCommentsSt false rest
    else dropCommentsSt true rest
  | false, c :: rest =>
    if c = '!' then dropCommentsSt true rest
    else c :: dropCommentsSt false rest

/-- `without_comments` (`mecha/io/chemkin/read.py` lines 182-188). -/
def withoutComments (s : String) : String := ⟨dropCommentsSt false s.data⟩

/-- `block` (`mecha/io/chemkin/read.py` lines 164-179). -/
def chemkinBlock (mechStr key : String) (comments : Bool) :
    Except PyErr String :=
  match splitFirstSub mechStr.data key.data with
  | none => .error .parseException
  | some (_, afterKey) =>
    match splitFirstSub afterKey ("END".data) with
    | none => .error .parseException
    | some (mid, _) =>
      let b : String := ⟨mid⟩
      .ok (if comments then b else withoutComments b)

/-! ### Lemmas about `splitFirstSub` -/

theorem splitFirstSub_decomp {s pat x y : List Char}
    (h : splitFirstSub s pat = some (x, y)) : s = x ++ pat ++ y := by
  induction s generalizing x y with
  | nil =>
    unfold splitFirstSub at h
    split at h
    case isTrue hpre =>
      have : pat = [] := List.prefix_nil.mp (List.isPrefixOf_iff_prefix.mp hpre)
      subst this
      injection h with h'
      injection h' with h1 h2
      rw [← h1, ← h2]; rfl
    case isFalse => exact absurd h (by simp)
  | cons c cs ih =>
    unfold splitFirstSub at h
    split at h
    case isTrue hpre =>
      obtain ⟨t, ht⟩ := List.isPrefixOf_iff_prefix.mp hpre
      injection h with h'
      injection h' with h1 h2
      rw [← h1, ← h2, ← ht]
      simp
    case isFalse =>
      have h2 : (splitFirstSub cs pat).map (fun p => (c :: p.1, p.2)) =
          some (x, y) := h
      rcases hrec : splitFirstSub cs pat with - | ⟨x1, y1⟩
      · rw [hrec] at h2; exact absurd h2 (by simp)
      · rw [hrec] at h2
        injection h2 with h'
        injection h' with ha hb
        rw [← ha, ← hb]
        have := ih hrec
        simp [this]

theorem splitFirstSub_isSome_of_decomp {pat : List Char} :
    ∀ {x y s : List Char}, s = x ++ pat ++ y →
    (splitFirstSub s pat).isSome = true := by
  intro x
  induction x with
  | nil =>
    intro y s hs
    subst hs
    unfold splitFirstSub
    rw [if_pos (List.isPrefixOf_iff_prefix.mpr ⟨y, by simp⟩)]
    rfl
  | cons c cs ih =>
    intro y s hs
    subst hs
    unfold splitFirstSub
    split
    · rfl
    · have hsome := ih (y := y) (s := cs ++ pat ++ y) (by simp)
      have hmap : ((c :: cs) ++ pat ++ y) =
          c :: (cs ++ pat ++ y) := by simp
      show ((splitFirstSub (cs ++ pat ++ y) pat).map
        (fun p => (c :: p.1, p.2))).isSome = true
      rcases hrec : splitFirstSub (cs ++ pat ++ y) pat with - | p
      · rw [hrec] at hsome; exact absurd hsome (by simp)
      · rfl

theorem splitFirstSub_none_of_no_decomp {s pat : List Char}
    (h : ¬ ∃ x y, s = x ++ pat ++ y) : splitFirstSub s pat = none := by
  rcases hr : splitFirstSub s pat with - | ⟨x, y⟩
  · rfl
  · exact absurd ⟨x, y, splitFirstSub_decomp hr⟩ h

theorem no_decomp_of_splitFirstSub_none {s pat : List Char}
    (h : splitFirstSub s pat = none) : ¬ ∃ x y, s = x ++ pat ++ y := by
  rintro ⟨x, y, rfl⟩
  have := @splitFirstSub_isSome_of_decomp pat x y (x ++ pat ++ y) rfl
  rw [h] at this
  exact absurd this (by simp)

theorem splitFirstSub_first {pat : List Char} :
    ∀ (x y : List Char),
    (∀ i, i < x.length → ¬(pat.isPrefixOf ((x ++ pat ++ y).drop i) = true)) →
    splitFirstSub (x ++ pat ++ y) pat = some (x, y) := by
  intro x
  induction x with
  | nil =>
    intro y _
    unfold splitFirstSub
    rw [if_pos (List.isPrefixOf_iff_prefix.mpr ⟨y, by simp⟩)]
    simp
  | cons c cs ih =>
    intro y hnot
    have h0 : ¬(pat.isPrefixOf ((c :: cs) ++ pat ++ y) = true) := by
      have := hnot 0 (by simp)
      simpa using this
    unfold splitFirstSub
    rw [if_neg h0]
    have hrec := ih y (fun i hi => by
      have := hnot (i + 1) (by simpa using Nat.succ_lt_succ hi)
      simpa using this)
    show (splitFirstSub (cs ++ pat ++ y) pat).map
        (fun p => (c :: p.1, p.2)) = some (c :: cs, y)
    rw [hrec]
    rfl

/-! ## Claim C9: the block scanner -/

/-- C9, counterexample: the scan is case-SENSITIVE, not
case-insensitive as claimed: on `"reactions x END"`, whose first
case-insensitive occurrence of `"REACTIONS"` is at position 0 and is
followed by `"END"`, `block` raises a `ParseException` instead of
returning `" x "`; on the upper-case input it does return `" x "`.
Moreover the keyword-absent and END-absent failures are the same
`ParseException`, not distinct `BlockNotFound`/`UnterminatedBlock`
errors. -/
theorem c9_counterexample :
    chemkinBlock "reactions x END" "REACTIONS" true = .error .parseException
    ∧ chemkinBlock "REACTIONS x END" "REACTIONS" true = .ok " x "
    ∧ String.mk ("reactions".data.map Char.toUpper) = "REACTIONS"
    ∧ chemkinBlock "nothing here" "REACTIONS" true = .error .parseException
    ∧ chemkinBlock "REACTIONS no terminator" "REACTIONS" true =
        .error .parseException := by
  refine ⟨rfl, rfl, rfl, rfl, rfl⟩

/-- C9 (amended): for every mechanism text and block keyword, `block`
(with `comments=True`; the default `comments=False` additionally strips
comments from the result) returns the substring strictly between the
first case-SENSITIVE occurrence of the keyword as a raw substring and
the next occurrence of the raw substring `"END"`; when the keyword does
not occur, and likewise when no `"END"` follows its first occurrence,
it fails with one and the same parse error (`pyparsing.ParseException`
— the spec's distinct `BlockNotFound`/`UnterminatedBlock` error kinds
do not exist in the code). -/
theorem c9_amended (mech key : String) :
    ((¬ ∃ x y, mech.data = x ++ key.data ++ y) →
      chemkinBlock mech key true = .error .parseException)
    ∧ (∀ x mid y : List Char,
        mech.data = x ++ key.data ++ (mid ++ ("END".data ++ y)) →
        (∀ i, i < x.length →
          ¬(key.data.isPrefixOf (mech.data.drop i) = true)) →
        (∀ j, j < mid.length →
          ¬(("END".data).isPrefixOf ((mid ++ ("END".data ++ y)).drop j) = true)) →
        chemkinBlock mech key true = .ok ⟨mid⟩)
    ∧ (∀ x y : List Char, mech.data = x ++ key.data ++ y →
        (∀ i, i < x.length →
          ¬(key.data.isPrefixOf (mech.data.drop i) = true)) →
        (¬ ∃ u v, y = u ++ "END".data ++ v) →
        chemkinBlock mech key true = .error .parseException) := by
  refine ⟨?_, ?_, ?_⟩
  · intro h
    simp only [chemkinBlock, splitFirstSub_none_of_no_decomp h]
  · intro x mid y hdec hfirst hfirstEnd
    have h1 : splitFirstSub mech.data key.data =
        some (x, mid ++ ("END".data ++ y)) := by
      rw [hdec]
      exact splitFirstSub_first x (mid ++ ("END".data ++ y))
        (fun i hi => by rw [← hdec]; exact hfirst i hi)
    have hfe : ∀ i, i < mid.length →
        ¬(("END".data).isPrefixOf ((mid ++ "END".data ++ y).drop i) = true) := by
      intro i hi
      have := hfirstEnd i hi
      rwa [show mid ++ ("END".data ++ y) = mid ++ "END".data ++ y by simp]
        at this
    have h2 : splitFirstSub (mid ++ ("END".data ++ y)) ("END".data) =
        some (mid, y) := by
      have := @splitFirstSub_first ("END".data) mid y hfe
      rwa [show mid ++ "END".data ++ y = mid ++ ("END".data ++ y) by simp]
        at this
    simp only [chemkinBlock, h1, h2, if_true]
  · intro x y hdec hfirst hnoend
    have h1 : splitFirstSub mech.data key.data = some (x, y) := by
      rw [hdec]
      exact splitFirstSub_first x y (fun i hi => by rw [← hdec]; exact hfirst i hi)
    simp only [chemkinBlock, h1, splitFirstSub_none_of_no_decomp hnoend]

/-- C9, witness: the three behaviors at concrete inputs. -/
theorem c9_witness :
    chemkinBlock "no block" "REACTIONS" true = .error .parseException
    ∧ chemkinBlock "x REACTIONS a = b END y" "REACTIONS" true = .ok " a = b "
    ∧ chemkinBlock "REACTIONS no close" "REACTIONS" true =
        .error .parseException := by
  refine ⟨?_, ?_, ?_⟩
  · exact (c9_amended "no block" "REACTIONS").1
      (no_decomp_of_splitFirstSub_none rfl)
  · exact (c9_amended "x REACTIONS a = b END y" "REACTIONS").2.1
      ("x ".data) (" a = b ".data) (" y".data) rfl (by decide) (by decide)
  · exact (c9_amended "REACTIONS no close" "REACTIONS").2.2
      [] (" no close".data) rfl (by decide)
      (no_decomp_of_splitFirstSub_none rfl)

/-! ## Duplicate consolidation and expansion
(`mecha/_mecha.py` lines 448-474)

`combine_duplicate_reactions(rxn_df, first=False)` groups the table by
the `eq` column (pandas `groupby` sorts the group keys), aggregates the
duplicate-differing columns `schema.DUP_DIFF_COLS = (rate, chi, obj)`
into lists (in encounter order) and every other column with "first";
`expand_duplicate_reactions` re-explodes the duplicate-differing
columns in lockstep (pandas `explode` raises a `ValueError` when the
lists of one row have mismatched lengths).

The embedding instantiates the `schema.Reactions` column set with all
three duplicate-differing columns present plus `orig_eq` standing for
the remaining non-duplicate-differing optional columns; cell types are
type parameters.  (pandas `explode` turns an empty-list cell into one
NaN row; that case cannot arise from `combine`'s output, whose lists
are per-group and non-empty, and is not modelled.) -/

/-- A row of the reactions table. -/
structure RxnRow (α β γ δ : Type) where
  eq : String
  rate : α
  chi : β
  obj : γ
  origEq : δ
deriving DecidableEq

/-- A row of the combined table: duplicate-differing columns hold
lists. -/
structure CombRow (α β γ δ : Type) where
  eq : String
  rate : List α
  chi : List β
  obj : List γ
  origEq : δ
deriving DecidableEq

/-- The group keys of `groupby(eq)`: distinct `eq` values in sorted
order (pandas sorts group keys). -/
def groupKeys (eqs : List String) : List String :=
  eqs.dedup.insertionSort (· ≤ ·)

/-- The aggregation of one `eq`-group: list-aggregate the
duplicate-differing columns, take the first value of the others. -/
def combineKey {α β γ δ : Type} (rows : List (RxnRow α β γ δ)) (k : String) :
    Option (CombRow α β γ δ) :=
  match rows.filter (fun r => decide (r.eq = k)) with
  | [] => none
  | g :: gs => some { eq := k,
                      rate := (g :: gs).map (·.rate),
                      chi := (g :: gs).map (·.chi),
                      obj := (g :: gs).map (·.obj),
                      origEq := g.origEq }

/-- `combine_duplicate_reactions(rxn_df, first=False)`. -/
def combineDuplicateReactions {α β γ δ : Type}
    (rows : List (RxnRow α β γ δ)) : List (CombRow α β γ δ) :=
  (groupKeys (rows.map (·.eq))).filterMap (combineKey rows)

/-- Explosion of one combined row: the three list columns must have
equal lengths, else pandas `explode` raises
`ValueError("columns must have matching element counts")`. -/
def expandRow {α β γ δ : Type} (c : CombRow α β γ δ) :
    Except PyErr (List (RxnRow α β γ δ)) :=
  if c.rate.length = c.chi.length ∧ c.chi.length = c.obj.length then
    .ok ((c.rate.zip (c.chi.zip c.obj)).map (fun p =>
      { eq := c.eq, rate := p.1, chi := p.2.1, obj := p.2.2,
        origEq := c.origEq }))
  else .error (.valueError "columns must have matching element counts")

/-- `expand_duplicate_reactions`. -/
def expandDuplicateReactions {α β γ δ : Type} :
    List (CombRow α β γ δ) → Except PyErr (List (RxnRow α β γ δ))
  | [] => .ok []
  | c :: rest =>
    match expandRow c, expandDuplicateReactions rest with
    | .ok xs, .ok ys => .ok (xs ++ ys)
    | .error e, _ => .error e
    | .ok _, .error e => .error e

/-! ### Lemmas for the duplicate round trip -/

theorem expandRow_reconstruct {α β γ δ : Type} (k : String) (d0 : δ)
    (l : List (RxnRow α β γ δ)) (hk : ∀ r ∈ l, r.eq = k)
    (hd : ∀ r ∈ l, r.origEq = d0) :
    ((l.map (·.rate)).zip ((l.map (·.chi)).zip (l.map (·.obj)))).map
      (fun p => ({ eq := k, rate := p.1, chi := p.2.1, obj := p.2.2,
                   origEq := d0 } : RxnRow α β γ δ)) = l := by
  induction l with
  | nil => rfl
  | cons r rest ih =>
    simp only [List.map_cons, List.zip_cons_cons]
    rw [ih (fun x hx => hk x (List.mem_cons_of_mem _ hx))
        (fun x hx => hd x (List.mem_cons_of_mem _ hx))]
    obtain ⟨re, rr, rc, ro, rg⟩ := r
    have h1 : re = k := hk _ (List.mem_cons_self _ _)
    have h2 : rg = d0 := hd _ (List.mem_cons_self _ _)
    rw [h1, h2]

theorem expandRow_combine {α β γ δ : Type} (k : String)
    (g : RxnRow α β γ δ) (gs : List (RxnRow α β γ δ))
    (hk : ∀ r ∈ g :: gs, r.eq = k)
    (hd : ∀ r ∈ g :: gs, r.origEq = g.origEq) :
    expandRow { eq := k,
                rate := (g :: gs).map (·.rate),
                chi := (g :: gs).map (·.chi),
                obj := (g :: gs).map (·.obj),
                origEq := g.origEq } = .ok (g :: gs) := by
  unfold expandRow
  rw [if_pos (by simp)]
  rw [expandRow_reconstruct k g.origEq (g :: gs) hk hd]

theorem expand_filterMap_keys {α β γ δ : Type} (rows : List (RxnRow α β γ δ))
    (h : ∀ r1 ∈ rows, ∀ r2 ∈ rows, r1.eq = r2.eq → r1.origEq = r2.origEq) :
    ∀ ks : List String,
    (∀ k ∈ ks, rows.filter (fun r => decide (r.eq = k)) ≠ []) →
    expandDuplicateReactions (ks.filterMap (combineKey rows)) =
      .ok (ks.flatMap (fun k => rows.filter (fun r => decide (r.eq = k)))) := by
  intro ks
  induction ks with
  | nil => intro _; rfl
  | cons k ks ih =>
    intro hne
    rcases hg : rows.filter (fun r => decide (r.eq = k)) with - | ⟨g, gs⟩
    · exact absurd hg (hne k (List.mem_cons_self _ _))
    · have hmemgrp : ∀ r ∈ g :: gs, r ∈ rows ∧ r.eq = k := by
        intro r hr
        rw [← hg] at hr
        obtain ⟨h1, h2⟩ := List.mem_filter.mp hr
        exact ⟨h1, of_decide_eq_true h2⟩
      have hk : ∀ r ∈ g :: gs, r.eq = k := fun r hr => (hmemgrp r hr).2
      have hd : ∀ r ∈ g :: gs, r.origEq = g.origEq := by
        intro r hr
        exact h r (hmemgrp r hr).1 g (hmemgrp g (List.mem_cons_self _ _)).1
          (by rw [hk r hr, hk g (List.mem_cons_self _ _)])
      have hck : combineKey rows k =
          some { eq := k,
                 rate := (g :: gs).map (·.rate),
                 chi := (g :: gs).map (·.chi),
                 obj := (g :: gs).map (·.obj),
                 origEq := g.origEq } := by
        unfold combineKey
        rw [hg]
      rw [List.filterMap_cons, hck]
      have hrest := ih (fun k2 hk2 => hne k2 (List.mem_cons_of_mem _ hk2))
      show (match expandRow _, expandDuplicateReactions
          (ks.filterMap (combineKey rows)) with
        | .ok xs, .ok ys => Except.ok (xs ++ ys)
        | .error e, _ => .error e
        | .ok _, .error e => .error e) = _
      rw [expandRow_combine k g gs hk hd, hrest]
      rw [List.flatMap_cons, hg]

theorem count_flatMap_groups {α β γ δ : Type} [DecidableEq α] [DecidableEq β]
    [DecidableEq γ] [DecidableEq δ]
    (rows : List (RxnRow α β γ δ)) (x : RxnRow α β γ δ) :
    ∀ ks : List String, ks.Nodup →
    (ks.flatMap (fun k => rows.filter (fun r => decide (r.eq = k)))).count x =
      if x.eq ∈ ks then rows.count x else 0 := by
  intro ks
  induction ks with
  | nil => intro _; simp
  | cons k ks ih =>
    intro hnd
    obtain ⟨hk_notin, hnd2⟩ := List.nodup_cons.mp hnd
    rw [List.flatMap_cons, List.count_append]
    by_cases hxk : x.eq = k
    · rw [List.count_filter (by simp [hxk]), ih hnd2,
        if_neg (fun hmem => hk_notin (hxk ▸ hmem))]
      simp [hxk]
    · have hzero : (rows.filter (fun r => decide (r.eq = k))).count x = 0 := by
        refine List.count_eq_zero.mpr (fun hmem => ?_)
        exact hxk (of_decide_eq_true (List.mem_filter.mp hmem).2)
      rw [hzero, ih hnd2]
      simp [List.mem_cons, hxk]

/-! ## Claim C5: duplicate round trip -/

/-- C5, counterexample: for a table whose rows differ in a column that
is NOT in `DUP_DIFF_COLS` (here `orig_eq`), `combine` keeps only the
first group value and `expand` replicates it, so
`expand(combine(R, first=False))` is NOT equal to `R` up to row
permutation: the second row comes back with the first row's `orig_eq`. -/
theorem c5_counterexample :
    expandDuplicateReactions (combineDuplicateReactions
      [({ eq := "A = B", rate := 1, chi := 1, obj := 1, origEq := 10 } :
          RxnRow ℕ ℕ ℕ ℕ),
       { eq := "A = B", rate := 2, chi := 2, obj := 2, origEq := 20 }]) =
      .ok [{ eq := "A = B", rate := 1, chi := 1, obj := 1, origEq := 10 },
           { eq := "A = B", rate := 2, chi := 2, obj := 2, origEq := 10 }]
    ∧ ¬ ([({ eq := "A = B", rate := 1, chi := 1, obj := 1, origEq := 10 } :
            RxnRow ℕ ℕ ℕ ℕ),
          { eq := "A = B", rate := 2, chi := 2, obj := 2, origEq := 10 }].Perm
         [{ eq := "A = B", rate := 1, chi := 1, obj := 1, origEq := 10 },
          { eq := "A = B", rate := 2, chi := 2, obj := 2, origEq := 20 }]) := by
  exact ⟨rfl, by decide⟩

/-- C5 (amended): for every reactions table whose NON-duplicate-differing
columns (represented by `orig_eq`) are constant within each `eq` group —
in particular for tables with only the `eq` and duplicate-differing
columns — `expand(combine(R, first=False))` succeeds and reproduces `R`
up to row permutation: every original row reappears exactly once with
its original duplicate-differing column values, and no rows are added. -/
theorem c5_amended {α β γ δ : Type} [DecidableEq α] [DecidableEq β]
    [DecidableEq γ] [DecidableEq δ] (rows : List (RxnRow α β γ δ))
    (h : ∀ r1 ∈ rows, ∀ r2 ∈ rows, r1.eq = r2.eq → r1.origEq = r2.origEq) :
    ∃ out, expandDuplicateReactions (combineDuplicateReactions rows) = .ok out
      ∧ out.Perm rows := by
  have hperm := List.perm_insertionSort (α := String) (· ≤ ·)
    (rows.map (·.eq)).dedup
  have hmemkeys : ∀ k, k ∈ groupKeys (rows.map (·.eq)) ↔
      k ∈ rows.map (·.eq) := by
    intro k
    unfold groupKeys
    rw [hperm.mem_iff, List.mem_dedup]
  have hnd : (groupKeys (rows.map (·.eq))).Nodup :=
    hperm.nodup_iff.mpr (List.nodup_dedup _)
  have hne : ∀ k ∈ groupKeys (rows.map (·.eq)),
      rows.filter (fun r => decide (r.eq = k)) ≠ [] := by
    intro k hk
    obtain ⟨r, hr, hre⟩ := List.mem_map.mp ((hmemkeys k).mp hk)
    intro hnil
    have : r ∈ rows.filter (fun r => decide (r.eq = k)) :=
      List.mem_filter.mpr ⟨hr, by simp [hre]⟩
    rw [hnil] at this
    exact absurd this (List.not_mem_nil r)
  refine ⟨_, expand_filterMap_keys rows h _ hne, ?_⟩
  refine List.perm_iff_count.mpr (fun x => ?_)
  rw [count_flatMap_groups rows x _ hnd]
  by_cases hx : x.eq ∈ groupKeys (rows.map (·.eq))
  · rw [if_pos hx]
  · rw [if_neg hx]
    have hxnot : x ∉ rows := by
      intro hmem
      exact hx ((hmemkeys x.eq).mpr (List.mem_map.mpr ⟨x, hmem, rfl⟩))
    rw [List.count_eq_zero.mpr hxnot]

/-- C5, witness: the spec's end-to-end duplicate scenario — two rows
with the same equation and different rates — combines and expands back
to the original table. -/
theorem c5_witness :
    ∃ out, expandDuplicateReactions (combineDuplicateReactions
      [({ eq := "A = B", rate := 1, chi := 1, obj := 1, origEq := 0 } :
          RxnRow ℕ ℕ ℕ ℕ),
       { eq := "A = B", rate := 2, chi := 2, obj := 2, origEq := 0 }]) =
        .ok out
      ∧ out.Perm
        [({ eq := "A = B", rate := 1, chi := 1, obj := 1, origEq := 0 } :
            RxnRow ℕ ℕ ℕ ℕ),
         { eq := "A = B", rate := 2, chi := 2, obj := 2, origEq := 0 }] :=
  c5_amended _ (by decide)

/-! ## The reaction-entry grammar of `reactions`
(`mecha/io/chemkin/read.py` lines 48-61)

    rxn_expr = eq_expr + number_list_expr(3)("arrh")
             + Opt(rate_params_expr("LOW", 3))("arrh0")
             + Opt(rate_params_expr("TROE", 3, 4))("troe")
             + Opt(OneOrMore(Group(rate_params_expr("PLOG", 4))))("plog")
             + DUP("dup")

`number_list_expr` (lines 201-212) is
`delimitedList(ppc.number, delim="", min=nmin, max=nmax)`: a
whitespace-separated list of numbers with the given length bounds.
(As written, passing the empty-string delimiter to `delimitedList`
raises `ValueError("null string passed to Literal")` in pyparsing at
grammar-construction time, before any input is read; the embedding
models the evidently intended semantics of a plain number sequence.)
`rate_params_expr` (lines 215-228) is a caseless keyword followed by a
slash-delimited number list.  Numbers (`pyparsing_common.number`) are
signed decimal literals with optional fraction and scientific exponent,
modelled exactly over `ℚ`. -/

/-- Digit run to a natural number. -/
def digitsToNat (l : List Char) : ℕ :=
  l.foldl (fun acc c => acc * 10 + (c.toNat - 48)) 0

/-- `pyparsing_common.number`: `[+-]?` then digits with optional
`.digits` fraction (at least one digit overall) and an optional
`[eE][+-]?digits` exponent, preceded by whitespace skipping. -/
def parseNumber (s : List Char) : Option (ℚ × List Char) :=
  let s1 := s.dropWhile ppWs
  let signNeg : Bool := s1.head? = some '-'
  let s2 := if s1.head? = some '-' ∨ s1.head? = some '+' then s1.tail else s1
  let intD := s2.takeWhile Char.isDigit
  let s3 := s2.dropWhile Char.isDigit
  let fracPresent : Bool := s3.head? = some '.'
  let fracD := if fracPresent then s3.tail.takeWhile Char.isDigit else []
  let s4 := if fracPresent then s3.tail.dropWhile Char.isDigit else s3
  if intD.isEmpty ∧ fracD.isEmpty then none
  else
    let ex : ℤ × List Char :=
      match s4 with
      | e :: r =>
        if e = 'e' ∨ e = 'E' then
          let esNeg : Bool := r.head? = some '-'
          let r2 := if r.head? = some '-' ∨ r.head? = some '+' then r.tail else r
          let expD := r2.takeWhile Char.isDigit
          if expD.isEmpty then (0, s4)
          else ((if esNeg then -(digitsToNat expD : ℤ) else (digitsToNat expD : ℤ)),
                r2.dropWhile Char.isDigit)
        else (0, s4)
      | [] => (0, s4)
    let mant : ℚ := (digitsToNat intD : ℚ) +
      (digitsToNat fracD : ℚ) / ((10 : ℚ) ^ fracD.length)
    some ((if signNeg then -mant else mant) * (10 : ℚ) ^ ex.1, ex.2)

/-- Greedy number sequence of at most `fuel` numbers. -/
def numberListGo : ℕ → List Char → List ℚ × List Char
  | 0, s => ([], s)
  | n + 1, s =>
    match parseNumber s with
    | some (q, r) =>
      let p := numberListGo n r
      (q :: p.1, p.2)
    | none => ([], s)

/-- `number_list_expr(nmin, nmax)`: between `nmin` and `nmax`
whitespace-separated numbers (greedy up to `nmax`). -/
def numberList (nmin nmax : ℕ) (s : List Char) :
    Option (List ℚ × List Char) :=
  let p := numberListGo nmax s
  if p.1.length < nmin then none else some p

/-- Case-insensitive literal match (no whitespace skipping; callers
skip). -/
def matchCaseless : List Char → List Char → Option (List Char)
  | [], s => some s
  | _ :: _, [] => none
  | p :: ps, c :: cs =>
    if p.toUpper = c.toUpper then matchCaseless ps cs else none

/-- `CaselessLiteral` with leading whitespace skipping. -/
def caselessLit (pat : String) (s : List Char) : Option (List Char) :=
  matchCaseless pat.data (s.dropWhile ppWs)

/-- The suppressed slash delimiter. -/
def slashTok (s : List Char) : Option (List Char) :=
  match s.dropWhile ppWs with
  | '/' :: r => some r
  | _ => none

/-- `rate_params_expr(key, nmin, nmax)`:
`CaselessLiteral(key) / numbers /`. -/
def rateParams (key : String) (nmin nmax : ℕ) (s : List Char) :
    Option (List ℚ × List Char) :=
  match caselessLit key s with
  | none => none
  | some r1 =>
    match slashTok r1 with
    | none => none
    | some r2 =>
      match numberList nmin nmax r2 with
      | none => none
      | some (qs, r3) =>
        match slashTok r3 with
        | none => none
        | some r4 => some (qs, r4)

/-- `OneOrMore(Group(rate_params_expr("PLOG", 4)))`, fuel-driven. -/
def plogListGo : ℕ → List Char → List (List ℚ) × List Char
  | 0, s => ([], s)
  | n + 1, s =>
    match rateParams "PLOG" 4 4 s with
    | some (qs, r) =>
      let p := plogListGo n r
      (qs :: p.1, p.2)
    | none => ([], s)

/-- `DUP = Opt(CaselessKeyword("DUP") ^ CaselessKeyword("DUPLICATE"))`:
the longer keyword wins; a keyword must end at a word boundary. -/
def dupTok (s : List Char) : Option (String × List Char) :=
  let boundary : List Char → Bool := fun r =>
    match r.head? with
    | some c => ¬(c.isAlphanum ∨ c = '_')
    | none => true
  match caselessLit "DUPLICATE" s with
  | some r => if boundary r then some ("DUPLICATE", r) else none
  | none =>
    match caselessLit "DUP" s with
    | some r => if boundary r then some ("DUP", r) else none
    | none => none

/-- The `asDict()` image of one parsed `rxn_expr`: top-level keys
`reactants`, `arrow`, `products`, `arrh` and the optional `arrh0`,
`troe`, `plog`, `dup`.  The falloff results are NESTED inside the
`reactants`/`products` groups; there is no top-level `"falloff"` key. -/
structure RxnDict where
  reactants : SideParse
  arrow : String
  products : SideParse
  arrh : List ℚ
  arrh0 : Option (List ℚ)
  troe : Option (List ℚ)
  plog : Option (List (List ℚ))
  dup : Option String

/-- Parse one reaction entry (`rxn_expr`). -/
def parseRxnEntry (prev : Option Char) (s : List Char) :
    Option (RxnDict × List Char) :=
  match reagentSide prev s with
  | none => none
  | some (rside, r1) =>
    match arrowTok r1 with
    | none => none
    | some (a, r2) =>
      match reagentSide (some (a.data.getLastD '=')) r2 with
      | none => none
      | some (pside, r3) =>
        match numberList 3 3 r3 with
        | none => none
        | some (arrh, r4) =>
          let low : Option (List ℚ) × List Char :=
            match rateParams "LOW" 3 3 r4 with
            | some (qs, r) => (some qs, r)
            | none => (none, r4)
          let troe : Option (List ℚ) × List Char :=
            match rateParams "TROE" 3 4 low.2 with
            | some (qs, r) => (some qs, r)
            | none => (none, low.2)
          let plogs := plogListGo (troe.2.length + 1) troe.2
          let plogOpt : Option (List (List ℚ)) × List Char :=
            match plogs.1 with
            | [] => (none, troe.2)
            | qs => (some qs, plogs.2)
          let dup : Option String × List Char :=
            match dupTok plogOpt.2 with
            | some (d, r) => (some d, r)
            | none => (none, plogOpt.2)
          some ({ reactants := rside, arrow := a, products := pside,
                  arrh := arrh, arrh0 := low.1, troe := troe.1,
                  plog := plogOpt.1, dup := dup.1 }, dup.2)

/-- `dct.get("falloff", "")` at `mecha/io/chemkin/read.py` line 73: the
parse dict has no top-level `"falloff"` key (the falloff tokens are
nested under `"reactants"`/`"products"`), so the default `""` is always
returned. -/
def rxnDictGetFalloff (_ : RxnDict) : String := ""

/-! ## `reac.from_chemkin` and the `reactions` pipeline wiring -/

/-- The parameter names of `mecha.data.rate.from_chemkin`
(`mecha/data/rate.py` lines 139-146). -/
def rateFromChemkinParamNames : List String :=
  ["arrow", "plus_m", "arrh", "arrh0", "troe", "plog"]

/-- The keyword-argument names used at the call site
`rate_.from_chemkin(arrow=arrow, coll=coll, arrh=arrh, arrh0=arrh0,
troe=troe, plog=plog)` in `mecha/data/reac.py` lines 90-92. -/
def reacRateCallKwNames : List String :=
  ["arrow", "coll", "arrh", "arrh0", "troe", "plog"]

/-- `from_chemkin` of `mecha/data/reac.py` (lines 63-93):
1. `extract_collider(rcts, prds)`;
2. if `falloff is not None`: assert no bare collider was extracted and
   use the falloff token as the collider;
3. call `rate_.from_chemkin(arrow=arrow, coll=coll, ...)`.  Python
   binds the keyword arguments against the parameter names of
   `mecha.data.rate.from_chemkin` — which are `(arrow, plus_m, arrh,
   arrh0, troe, plog)`, NOT `coll` — and raises
   `TypeError: from_chemkin() got an unexpected keyword argument 'coll'`
   before the callee body runs.  The binding is modelled by the
   name-containment check below; its success branch (unreachable, since
   `"coll"` is not a parameter name) forwards the shared parameters
   with `plus_m` left at its default `""`;
4. construct the `Reaction` (collider left at its default `None`). -/
def reacFromChemkin (rcts prds : List String) (arrow : String)
    (falloff : Option String) (arrh arrh0 troe : Option (List ℚ))
    (plog : Option (List (List ℚ))) : Except PyErr Reaction :=
  match extractCollider (rcts.map some) (prds.map some) with
  | .error e => .error e
  | .ok (rcts2, prds2, coll) =>
    match (match falloff with
      | some fo =>
        if coll ≠ none then
          .error (.assertionError "Cannot have collider with falloff")
        else .ok (some fo)
      | none => .ok coll : Except PyErr (Option String)) with
    | .error e => .error e
    | .ok _coll2 =>
      if reacRateCallKwNames.all (fun kw =>
          rateFromChemkinParamNames.contains kw) then
        match rateFromChemkin arrow "" arrh arrh0 troe plog with
        | .error e => .error e
        | .ok rate => mkReaction rcts2 prds2 (some rate) none
      else
        .error (.typeError
          "from_chemkin() got an unexpected keyword argument 'coll'")

/-- The per-entry body of `reactions` (`mecha/io/chemkin/read.py` lines
67-80): build the `Reaction` via `data.reac.from_chemkin` with
`falloff=dct.get("falloff", "")` (always `""`, the key is nested),
`arrh=dct.get("arrh", None)`, `arrh0=dct.get("arrh0", None)`,
`troe=dct.get("arrh0", None)` — the LOW parameters are passed as the
Troe coefficients and the parsed TROE parameters are dropped — and no
`plog` argument at all. -/
def reactionsEntry (d : RxnDict) : Except PyErr Reaction :=
  reacFromChemkin d.reactants.species d.products.species d.arrow
    (some (rxnDictGetFalloff d)) (some d.arrh) d.arrh0 d.arrh0 none

/-! ## Claim C1: the end-to-end falloff scenario -/

/-- The reactions-block entry of the claim. -/
def c1Entry : String :=
  "H + O2 (+M) = HO2 (+M)\n4.65E12 0.44 0.0\nLOW / 1.737E19 -1.23 0.0 /\nTROE / 0.67 1.0E-30 1.0E+30 /"

/-- C1 (code bug): the grammar does parse the entry — reactants
`("H", "O2")`, products `("HO2",)`, falloff `"(+M)"` on both sides,
the high-pressure, LOW and TROE number lists all captured — but the
`reactions` wiring then (i) reads the falloff from a top-level
`"falloff"` key that does not exist, (ii) passes the LOW parameters as
`troe`, and (iii) `reac.from_chemkin` forwards keyword `coll=` to
`mecha.data.rate.from_chemkin`, whose parameter is named `plus_m`, so
the pipeline raises `TypeError` instead of producing the claimed
Falloff reaction. -/
theorem c1_pipeline_bug :
    (parseRxnEntry none c1Entry.data).map (fun p => p.1.reactants.species) =
      some ["H", "O2"]
    ∧ (parseRxnEntry none c1Entry.data).map (fun p => p.1.products.species) =
      some ["HO2"]
    ∧ (parseRxnEntry none c1Entry.data).map (fun p => p.1.reactants.falloff) =
      some (some "(+M)")
    ∧ (parseRxnEntry none c1Entry.data).map
        (fun p => (p.1.troe).isSome && (p.1.arrh0).isSome) = some true
    ∧ (parseRxnEntry none c1Entry.data).map (fun p => reactionsEntry p.1) =
      some (.error (.typeError
        "from_chemkin() got an unexpected keyword argument 'coll'")) := by
  refine ⟨rfl, rfl, rfl, rfl, rfl⟩
